import Mathlib

/-!
Verification of the peak-profiling and CLI glue of `vimbaapilib.py`.

The analytic core `peak_fwhm` crops a 2D intensity frame to a region of
interest, optionally inverts it, averages the rows into a 1D lineout, runs
`scipy.signal.find_peaks` with a minimum-prominence constraint, selects the
most prominent peak when several are found, and measures that peak's width at
half its prominence with `scipy.signal.peak_widths`.

The embedding below translates the Python source (and the scipy routines it
calls, `_local_maxima_1d`, `_peak_prominences` and `_peak_widths`) into Lean.
Intensity samples and all derived quantities are rationals, idealising the
floating-point arithmetic of numpy/scipy; frames are lists of rows.
-/

/-- Element access into a lineout, `x.getD i 0`.  All reachable accesses in the
scipy loops stay inside the array, so the default value never influences a
result. -/
def getQ (x : List ℚ) (i : ℕ) : ℚ := x.getD i 0

/-- Python slice `l[a:b]` for non-negative bounds: indices `a ≤ i < b`, with
both bounds silently clamped to the list's length. -/
def pySlice {α : Type} (a b : ℕ) (l : List α) : List α := (l.take b).drop a

/-- Line 147: `frame_ndarray = frame_ndarray[roi[0]:roi[1], roi[2]:roi[3]]`. -/
def cropOf (frame : List (List ℚ)) (roi : List ℕ) : List (List ℚ) :=
  (pySlice (roi.getD 0 0) (roi.getD 1 0) frame).map
    (fun row => pySlice (roi.getD 2 0) (roi.getD 3 0) row)

/-- Lines 149-150: when `invert`, every sample `s` of the cropped frame is
replaced by `(2^pixbit - 1) - s`; otherwise the crop is used unchanged. -/
def workingOf (frame : List (List ℚ)) (pixbit : ℕ) (invert : Bool)
    (roi : List ℕ) : List (List ℚ) :=
  if invert then
    (cropOf frame roi).map (fun row => row.map (fun s => ((2 : ℚ) ^ pixbit - 1) - s))
  else cropOf frame roi

/-- Line 153: `np.mean(frame_ndarray, axis=0)` on a rectangular array of rows:
the elementwise sum of the rows divided by the number of rows.  (For a crop
with zero rows numpy would emit NaNs; the embedding returns the empty lineout,
and in both cases no peak is ever detected downstream.) -/
def npMeanAxis0 (m : List (List ℚ)) : List ℚ :=
  match m with
  | [] => []
  | r :: rs =>
    (rs.foldl (fun acc row => List.zipWith (· + ·) acc row) r).map
      (fun v => v / (((r :: rs).length : ℕ) : ℚ))

/-- The mean lineout analysed by `peak_fwhm` (lines 147-153). -/
def lineoutOf (frame : List (List ℚ)) (pixbit : ℕ) (invert : Bool)
    (roi : List ℕ) : List ℚ :=
  npMeanAxis0 (workingOf frame pixbit invert roi)

/-- The inner plateau scan of scipy `_local_maxima_1d`: starting at `ia`,
advance while `ia < x.length - 1` and `x[ia] = v`.  The fuel argument only
bounds the recursion; `x.length` steps always suffice. -/
def plateauScan (x : List ℚ) (v : ℚ) : ℕ → ℕ → ℕ
  | ia, 0 => ia
  | ia, fuel + 1 =>
    if ia + 1 < x.length ∧ getQ x ia = v then plateauScan x v (ia + 1) fuel else ia

/-- The main loop of scipy `_local_maxima_1d`: scan `i` from `1` to
`x.length - 2`; a maximum is found when `x[i-1] < x[i]` and the plateau of
values equal to `x[i]` starting at `i` is followed by a strictly smaller
sample; the recorded index is the plateau midpoint. -/
def localMaximaAux (x : List ℚ) : ℕ → ℕ → List ℕ
  | _, 0 => []
  | i, fuel + 1 =>
    if i + 1 < x.length then
      if getQ x (i - 1) < getQ x i then
        let ia := plateauScan x (getQ x i) (i + 1) x.length
        if getQ x ia < getQ x i then
          (i + (ia - 1)) / 2 :: localMaximaAux x (ia + 1) fuel
        else localMaximaAux x (i + 1) fuel
      else localMaximaAux x (i + 1) fuel
    else []

/-- All local maxima of a lineout, as reported by scipy `_local_maxima_1d`. -/
def localMaxima (x : List ℚ) : List ℕ := localMaximaAux x 1 x.length

/-- The leftward base scan of scipy `_peak_prominences`: from sample `i` walk
left while `0 < i` and `x[i] ≤ x[peak]`, tracking the running minimum and the
rightmost index attaining it. -/
def leftWalk (x : List ℚ) (xp : ℚ) : ℕ → ℚ → ℕ → ℚ × ℕ
  | 0, lmin, lbase => (lmin, lbase)
  | i + 1, lmin, lbase =>
    if getQ x (i + 1) ≤ xp then
      if getQ x i < lmin then leftWalk x xp i (getQ x i) i
      else leftWalk x xp i lmin lbase
    else (lmin, lbase)

/-- The rightward base scan of scipy `_peak_prominences`: from sample `i` walk
right while `i < x.length - 1` and `x[i] ≤ x[peak]`.  Fuel-bounded;
`x.length` steps always suffice. -/
def rightWalk (x : List ℚ) (xp : ℚ) : ℕ → ℕ → ℚ → ℕ → ℚ × ℕ
  | 0, _, rmin, rbase => (rmin, rbase)
  | fuel + 1, i, rmin, rbase =>
    if i + 1 < x.length ∧ getQ x i ≤ xp then
      if getQ x (i + 1) < rmin then rightWalk x xp fuel (i + 1) (getQ x (i + 1)) (i + 1)
      else rightWalk x xp fuel (i + 1) rmin rbase
    else (rmin, rbase)

/-- Prominence data of one peak as computed by scipy `_peak_prominences`. -/
structure PromData where
  prom : ℚ
  leftBase : ℕ
  rightBase : ℕ
deriving Repr, DecidableEq

/-- scipy `_peak_prominences` for a single peak index: the prominence is the
peak height minus the larger of the two flanking minima. -/
def promData (x : List ℚ) (p : ℕ) : PromData :=
  let xp := getQ x p
  let l := leftWalk x xp p xp p
  let r := rightWalk x xp x.length p xp p
  ⟨xp - max l.1 r.1, l.2, r.2⟩

/-- The `properties` dictionary returned by `scipy.signal.find_peaks` when
called with a `prominence` condition: prominences and bases of every candidate
that survived the prominence filter. -/
structure PeaksProps where
  prominences : List ℚ
  leftBases : List ℕ
  rightBases : List ℕ
deriving Repr, DecidableEq

/-- Line 155: `find_peaks(frame_lineout, prominence=(prominence_min, None))`:
local maxima whose prominence is at least `prominence_min`, together with the
prominence data of every kept candidate. -/
def find_peaks (x : List ℚ) (prominenceMin : ℚ) : List ℕ × PeaksProps :=
  let kept := (localMaxima x).filter (fun p => prominenceMin ≤ (promData x p).prom)
  (kept,
   ⟨kept.map (fun p => (promData x p).prom),
    kept.map (fun p => (promData x p).leftBase),
    kept.map (fun p => (promData x p).rightBase)⟩)

/-- `np.argmax`: index of the first occurrence of the maximum value (numpy
raises on an empty array; `peak_fwhm` only calls it on a list of length
at least two). -/
def npArgmax : List ℚ → ℕ
  | [] => 0
  | [_] => 0
  | a :: b :: t =>
    if a < (b :: t).getD (npArgmax (b :: t)) 0 then npArgmax (b :: t) + 1 else 0

/-- The leftward crossing scan of scipy `_peak_widths`: from sample `i` walk
left while `lb < i` and `height < x[i]`. -/
def widthLeftWalk (x : List ℚ) (h : ℚ) (lb : ℕ) : ℕ → ℕ
  | 0 => 0
  | i + 1 => if lb < i + 1 ∧ h < getQ x (i + 1) then widthLeftWalk x h lb i else i + 1

/-- The rightward crossing scan of scipy `_peak_widths`: from sample `i` walk
right while `i < rb` and `height < x[i]`.  Fuel-bounded; `x.length` steps
always suffice since `rb ≤ x.length`. -/
def widthRightWalk (x : List ℚ) (h : ℚ) (rb : ℕ) : ℕ → ℕ → ℕ
  | 0, i => i
  | fuel + 1, i => if i < rb ∧ h < getQ x i then widthRightWalk x h rb fuel (i + 1) else i

/-- scipy `_peak_widths` for a single peak: evaluation height
`x[peak] - prominence * relHeight`, interpolated left and right crossing
positions, and their distance.  Returns `(width, height, left_ip, right_ip)`. -/
def peakWidthOne (x : List ℚ) (relHeight : ℚ) (p : ℕ) : ℚ × ℚ × ℚ × ℚ :=
  let pd := promData x p
  let h := getQ x p - pd.prom * relHeight
  let il := widthLeftWalk x h pd.leftBase p
  let lip := (il : ℚ) +
    (if getQ x il < h then (h - getQ x il) / (getQ x (il + 1) - getQ x il) else 0)
  let ir := widthRightWalk x h pd.rightBase x.length p
  let rip := (ir : ℚ) -
    (if getQ x ir < h then (h - getQ x ir) / (getQ x (ir - 1) - getQ x ir) else 0)
  (rip - lip, h, lip, rip)

/-- The quadruple of arrays returned by `scipy.signal.peak_widths`. -/
structure PeakWidths where
  widths : List ℚ
  widthHeights : List ℚ
  leftIps : List ℚ
  rightIps : List ℚ
deriving Repr, DecidableEq

/-- Line 167: `peak_widths(frame_lineout, peakmax, rel_height=0.5)` (stated for
a general `relHeight`; `peak_fwhm` passes `1/2`). -/
def peak_widths (x : List ℚ) (peaks : List ℕ) (relHeight : ℚ) : PeakWidths :=
  ⟨peaks.map (fun p => (peakWidthOne x relHeight p).1),
   peaks.map (fun p => (peakWidthOne x relHeight p).2.1),
   peaks.map (fun p => (peakWidthOne x relHeight p).2.2.1),
   peaks.map (fun p => (peakWidthOne x relHeight p).2.2.2)⟩

/-- The tuple returned by `peak_fwhm` (line 169), together with a flag
recording whether the multiple-peaks warning of lines 160-162 was printed. -/
structure FwhmOut where
  peakwidth : PeakWidths
  peakmax : List ℕ
  props : PeaksProps
  lineout : List ℚ
  warnedMultiplePeaks : Bool
deriving Repr, DecidableEq

/-- The hard-coded default `roi = [0, 1215, 0, 1935]` of `peak_fwhm`. -/
def defaultRoi : List ℕ := [0, 1215, 0, 1935]

/-- Lines 132-169: `peak_fwhm`.  Crop to the ROI, optionally invert, average
the rows, detect peaks above the prominence threshold, keep only the most
prominent peak when several were detected (printing a warning), and measure
its width at relative height `1/2`. -/
def peak_fwhm (frame : List (List ℚ)) (prominence_min : ℚ) (pixbit : ℕ)
    (invert : Bool) (roi : List ℕ) : FwhmOut :=
  let lineout := lineoutOf frame pixbit invert roi
  let fp := find_peaks lineout prominence_min
  if 1 < fp.1.length then
    let pm := [fp.1.getD (npArgmax fp.2.prominences) 0]
    ⟨peak_widths lineout pm (1/2), pm, fp.2, lineout, true⟩
  else
    ⟨peak_widths lineout fp.1 (1/2), fp.1, fp.2, lineout, false⟩

/-- Linear interpolation of a lineout at a rational position `t ≥ 0`: with
`i = ⌊t⌋₊`, the value `x[i] + (t - i) * (x[i+1] - x[i])`.  Used to state that
the `left_ips`/`right_ips` returned by `peak_widths` are exact crossings of
the evaluation height. -/
def interp (x : List ℚ) (t : ℚ) : ℚ :=
  getQ x ⌊t⌋₊ + (t - (⌊t⌋₊ : ℚ)) * (getQ x (⌊t⌋₊ + 1) - getQ x ⌊t⌋₊)

/-- An ROI with all four bounds clamped to the frame's actual extent
(`rows` rows, `cols` columns). -/
def clampRoi (roi : List ℕ) (rows cols : ℕ) : List ℕ :=
  [min (roi.getD 0 0) rows, min (roi.getD 1 0) rows,
   min (roi.getD 2 0) cols, min (roi.getD 3 0) cols]

/-- Outcome of the CLI argument parser: either the process exits with a code,
or execution continues with an optional camera id. -/
inductive CliResult where
  | exitCode (code : ℕ) : CliResult
  | cameraId (id : Option String) : CliResult
deriving Repr, DecidableEq

/-- Lines 46-58: `parse_args` over `sys.argv[1:]`.  Any `/h` or `-h` argument
prints usage and exits 0; more than one argument aborts with code 2 and
usage; otherwise the single argument (or `None`) is returned. -/
def parse_args (argv : List String) : CliResult :=
  if argv.any (fun a => a = "/h" || a = "-h") then .exitCode 0
  else if 1 < argv.length then .exitCode 2
  else
    match argv with
    | [] => .cameraId none
    | a :: _ => .cameraId (some a)

/-- Outcome of camera lookup: a camera id, or a process exit. -/
inductive CameraResult where
  | cam (id : String) : CameraResult
  | exitCode (code : ℕ) : CameraResult
deriving Repr, DecidableEq

/-- Lines 60-74: `get_camera`.  The Vimba SDK is modelled by the list `cams`
of accessible camera ids: `get_camera_by_id` succeeds exactly on members of
that list, and `get_all_cameras` returns it.  A truthy (non-empty) requested
id is looked up, aborting with code 1 when absent; otherwise the first
accessible camera is used, aborting with code 1 when there is none. -/
def get_camera (camera_id : Option String) (cams : List String) : CameraResult :=
  match camera_id with
  | some cid =>
    if cid ≠ "" then
      if cid ∈ cams then .cam cid else .exitCode 1
    else
      match cams with
      | [] => .exitCode 1
      | c :: _ => .cam c
  | none =>
    match cams with
    | [] => .exitCode 1
    | c :: _ => .cam c

/-- Line 14: the timestamp format string. -/
def TS_FMT_STR : String := "%Y-%m-%dT%H-%M-%S"

/-- A Python value passed as the `frametsstr` argument of `save_frame`: either
an actual `str`, or a non-`str` value carrying the string `str(x)` would
produce.  A non-`str` value never compares equal to a string literal. -/
inductive PyVal where
  | str (s : String) : PyVal
  | nonStr (strRepr : String) : PyVal
deriving Repr, DecidableEq

/-- The filename-relevant outcome of `save_frame`: the saved filename, the
timestamp field embedded in it, and whether a warning was printed. -/
structure SaveFrameOut where
  filename : String
  tsField : String
  warned : Bool
deriving Repr, DecidableEq

/-- Lines 107-128: `save_frame`, reduced to its filename computation.
`nowStr` stands for `datetime.strftime(datetime.now(), TS_FMT_STR)`, the
timestamp taken at saving time.  The exact string `'now'` is replaced by
`nowStr` with a warning; any non-`str` value is converted with `str()` and
used, with a warning. -/
def save_frame (frametsstr : PyVal) (pixformatstr : String) (nowStr : String) :
    SaveFrameOut :=
  let tw : String × Bool :=
    if frametsstr = .str "now" then (nowStr, true)
    else
      match frametsstr with
      | .str s => (s, false)
      | .nonStr r => (r, true)
  ⟨"manta-frame_" ++ pixformatstr ++ "_" ++ tw.1 ++ ".npy", tw.1, tw.2⟩

/-- C7: `peak_fwhm` is deterministic and stateless: the embedded function
depends only on its five arguments (frame, prominence threshold, bit depth,
invert flag, ROI), so two calls on identical inputs return identical output
tuples, warning flag included.  The embedding is a pure function; the only
side effect of the Python routine, printing warnings, is reified in the
`warnedMultiplePeaks` field. -/
theorem peak_fwhm_deterministic (f₁ f₂ : List (List ℚ)) (pm₁ pm₂ : ℚ) (pb₁ pb₂ : ℕ)
    (inv₁ inv₂ : Bool) (roi₁ roi₂ : List ℕ)
    (hf : f₁ = f₂) (hpm : pm₁ = pm₂) (hpb : pb₁ = pb₂) (hinv : inv₁ = inv₂)
    (hroi : roi₁ = roi₂) :
    peak_fwhm f₁ pm₁ pb₁ inv₁ roi₁ = peak_fwhm f₂ pm₂ pb₂ inv₂ roi₂ := by
  subst hf hpm hpb hinv hroi
  rfl

/-- Witness for C7 at a concrete input. -/
theorem peak_fwhm_deterministic_witness :
    peak_fwhm [[1, 2, 3]] 25 8 false defaultRoi = peak_fwhm [[1, 2, 3]] 25 8 false defaultRoi :=
  peak_fwhm_deterministic [[1, 2, 3]] [[1, 2, 3]] 25 25 8 8 false false defaultRoi defaultRoi
    rfl rfl rfl rfl rfl

/-- C8: CLI behaviour.  A `/h` or `-h` argument anywhere exits with code 0;
otherwise more than one argument exits with code 2; a single (non-help)
argument is returned as the camera id; no argument returns `none`, and camera
lookup with `none` falls back to the first accessible camera. -/
theorem parse_args_cli_behavior (argv : List String) (cams : List String) :
    (argv.any (fun a => a = "/h" || a = "-h") = true → parse_args argv = .exitCode 0) ∧
    (argv.any (fun a => a = "/h" || a = "-h") = false → 1 < argv.length →
      parse_args argv = .exitCode 2) ∧
    (∀ a, argv = [a] → a ≠ "/h" → a ≠ "-h" → parse_args argv = .cameraId (some a)) ∧
    (argv = [] → parse_args argv = .cameraId none) ∧
    (∀ c cs, cams = c :: cs → get_camera none cams = .cam c) := by
  refine ⟨fun h => ?_, fun h h1 => ?_, fun a ha h1 h2 => ?_, fun h => ?_, fun c cs h => ?_⟩
  · simp [parse_args, h]
  · simp [parse_args, h, h1, Nat.not_lt.mpr (Nat.le_of_lt h1)]
  · subst ha
    simp [parse_args, h1, h2]
  · subst h
    rfl
  · subst h
    rfl

/-- Witness for C8 at concrete command lines. -/
theorem parse_args_cli_behavior_witness :
    parse_args ["-h"] = .exitCode 0 ∧ parse_args ["a", "b"] = .exitCode 2 ∧
    parse_args ["cam0"] = .cameraId (some "cam0") ∧ parse_args [] = .cameraId none ∧
    get_camera none ["cam0", "cam1"] = .cam "cam0" :=
  ⟨(parse_args_cli_behavior ["-h"] []).1 (by decide),
   (parse_args_cli_behavior ["a", "b"] []).2.1 (by decide) (by decide),
   (parse_args_cli_behavior ["cam0"] []).2.2.1 "cam0" rfl (by decide) (by decide),
   (parse_args_cli_behavior [] []).2.2.2.1 rfl,
   (parse_args_cli_behavior [] ["cam0", "cam1"]).2.2.2.2 "cam0" ["cam1"] rfl⟩

/-- C10 counterexample: a caller CAN save a file whose timestamp field is
literally `now`: passing a non-`str` value whose `str()` conversion is the
string `now` skips the sentinel branch (the equality test with the string
`now` fails for a non-`str` value), fails the type assertion, and is converted
and used as-is. -/
theorem save_frame_nonstr_now_counterexample :
    (save_frame (.nonStr "now") "Mono8" "2021-08-13T12-00-00").tsField = "now" ∧
    (save_frame (.nonStr "now") "Mono8" "2021-08-13T12-00-00").warned = true ∧
    "2021-08-13T12-00-00" ≠ "now" := by decide

/-- C10 (amended): `save_frame` treats the exact string `now` as a sentinel,
substituting the saving-time timestamp with a warning, so a caller passing a
string can never save a file whose timestamp field is literally `now` (the
substituted timestamp itself is never the string `now`); a non-`str` argument
is converted with `str()` and used with a warning rather than rejected — even
when that conversion yields the string `now`.  The timestamp field is embedded
verbatim in the saved filename. -/
theorem save_frame_now_sentinel (s pix nowStr : String) (v : PyVal) :
    ((save_frame (.str "now") pix nowStr).tsField = nowStr ∧
      (save_frame (.str "now") pix nowStr).warned = true) ∧
    (s ≠ "now" → (save_frame (.str s) pix nowStr).tsField = s ∧
      (save_frame (.str s) pix nowStr).warned = false) ∧
    (nowStr ≠ "now" → (save_frame (.str s) pix nowStr).tsField ≠ "now") ∧
    (∀ r, (save_frame (.nonStr r) pix nowStr).tsField = r ∧
      (save_frame (.nonStr r) pix nowStr).warned = true) ∧
    (save_frame v pix nowStr).filename =
      "manta-frame_" ++ pix ++ "_" ++ (save_frame v pix nowStr).tsField ++ ".npy" := by
  refine ⟨⟨rfl, rfl⟩, fun hs => ?_, fun hn => ?_, fun r => ⟨rfl, rfl⟩, rfl⟩
  · simp [save_frame, hs]
  · by_cases hs : s = "now"
    · simp [save_frame, hs, hn]
    · simp [save_frame, hs]

/-- Witness for C10's amended theorem at concrete strings. -/
theorem save_frame_now_sentinel_witness :
    ((save_frame (.str "now") "Mono8" "2021-08-13T12-00-00").tsField =
      "2021-08-13T12-00-00" ∧
      (save_frame (.str "now") "Mono8" "2021-08-13T12-00-00").warned = true) ∧
    ((save_frame (.str "ts1") "Mono8" "2021-08-13T12-00-00").tsField = "ts1" ∧
      (save_frame (.str "ts1") "Mono8" "2021-08-13T12-00-00").warned = false) ∧
    (save_frame (.str "ts1") "Mono8" "2021-08-13T12-00-00").tsField ≠ "now" :=
  have h := save_frame_now_sentinel "ts1" "Mono8" "2021-08-13T12-00-00" (.str "ts1")
  ⟨h.1, h.2.1 (by decide), h.2.2.1 (by decide)⟩

theorem getQ_eq_getElem (x : List ℚ) (i : ℕ) (h : i < x.length) : getQ x i = x[i] :=
  List.getD_eq_getElem x 0 h

theorem getQ_replicate (n : ℕ) (c : ℚ) (i : ℕ) :
    getQ (List.replicate n c) i = if i < n then c else 0 := by
  by_cases h : i < n
  · rw [getQ_eq_getElem _ _ (by simpa using h)]
    simp [h]
  · simp [getQ, List.getD_eq_getElem?_getD, List.getElem?_replicate, h]

theorem pySlice_length {α : Type} (a b : ℕ) (l : List α) :
    (pySlice a b l).length = min b l.length - a := by
  simp [pySlice]

theorem pySlice_clamp {α : Type} (a b : ℕ) (l : List α) :
    pySlice a b l = pySlice (min a l.length) (min b l.length) l := by
  unfold pySlice
  have htake : l.take b = l.take (min b l.length) := by
    rw [List.take_eq_take]
    omega
  rw [← htake]
  rcases Nat.le_total a l.length with h | h
  · rw [Nat.min_eq_left h]
  · rw [Nat.min_eq_right h]
    have hlen : (l.take b).length ≤ l.length := by
      rw [List.length_take]
      omega
    rw [List.drop_eq_nil_of_le (le_trans hlen h), List.drop_eq_nil_of_le hlen]

theorem pySlice_nil_of_le {α : Type} (a b : ℕ) (l : List α) (h : b ≤ a) :
    pySlice a b l = [] := by
  apply List.eq_nil_of_length_eq_zero
  rw [pySlice_length]
  omega

theorem mem_find_peaks {x : List ℚ} {pm : ℚ} {p : ℕ} (h : p ∈ (find_peaks x pm).1) :
    p ∈ localMaxima x ∧ pm ≤ (promData x p).prom := by
  simpa [find_peaks, List.mem_filter] using h

theorem find_peaks_prominences_length (x : List ℚ) (pm : ℚ) :
    (find_peaks x pm).2.prominences.length = (find_peaks x pm).1.length := by
  simp [find_peaks]

theorem peak_widths_nil (x : List ℚ) (r : ℚ) : peak_widths x [] r = ⟨[], [], [], []⟩ := rfl

theorem peak_widths_singleton (x : List ℚ) (r : ℚ) (p : ℕ) :
    peak_widths x [p] r =
      ⟨[(peakWidthOne x r p).1], [(peakWidthOne x r p).2.1],
       [(peakWidthOne x r p).2.2.1], [(peakWidthOne x r p).2.2.2]⟩ := rfl

theorem peak_fwhm_lineout (frame : List (List ℚ)) (pm : ℚ) (pb : ℕ) (inv : Bool)
    (roi : List ℕ) : (peak_fwhm frame pm pb inv roi).lineout = lineoutOf frame pb inv roi := by
  by_cases h1 : 1 < (find_peaks (lineoutOf frame pb inv roi) pm).1.length <;>
    simp [peak_fwhm, h1]

theorem peak_fwhm_props (frame : List (List ℚ)) (pm : ℚ) (pb : ℕ) (inv : Bool)
    (roi : List ℕ) :
    (peak_fwhm frame pm pb inv roi).props = (find_peaks (lineoutOf frame pb inv roi) pm).2 := by
  by_cases h1 : 1 < (find_peaks (lineoutOf frame pb inv roi) pm).1.length <;>
    simp [peak_fwhm, h1]

theorem peak_fwhm_of_many (frame : List (List ℚ)) (pm : ℚ) (pb : ℕ) (inv : Bool)
    (roi : List ℕ) (h1 : 1 < (find_peaks (lineoutOf frame pb inv roi) pm).1.length) :
    (peak_fwhm frame pm pb inv roi).peakmax =
      [(find_peaks (lineoutOf frame pb inv roi) pm).1.getD
        (npArgmax (find_peaks (lineoutOf frame pb inv roi) pm).2.prominences) 0] ∧
    (peak_fwhm frame pm pb inv roi).warnedMultiplePeaks = true := by
  constructor <;> simp [peak_fwhm, h1]

theorem peak_fwhm_of_few (frame : List (List ℚ)) (pm : ℚ) (pb : ℕ) (inv : Bool)
    (roi : List ℕ) (h1 : ¬ 1 < (find_peaks (lineoutOf frame pb inv roi) pm).1.length) :
    (peak_fwhm frame pm pb inv roi).peakmax = (find_peaks (lineoutOf frame pb inv roi) pm).1 ∧
    (peak_fwhm frame pm pb inv roi).warnedMultiplePeaks = false := by
  constructor <;> simp [peak_fwhm, h1]

theorem peak_fwhm_peakwidth (frame : List (List ℚ)) (pm : ℚ) (pb : ℕ) (inv : Bool)
    (roi : List ℕ) :
    (peak_fwhm frame pm pb inv roi).peakwidth =
      peak_widths (lineoutOf frame pb inv roi) (peak_fwhm frame pm pb inv roi).peakmax (1/2) := by
  by_cases h1 : 1 < (find_peaks (lineoutOf frame pb inv roi) pm).1.length <;>
    simp [peak_fwhm, h1]

theorem localMaximaAux_replicate (n : ℕ) (c : ℚ) :
    ∀ fuel i, localMaximaAux (List.replicate n c) i fuel = [] := by
  intro fuel
  induction fuel with
  | zero => intro i; rfl
  | succ fuel ih =>
    intro i
    by_cases h : i + 1 < (List.replicate n c).length
    · have hi : i < n := by
        simp only [List.length_replicate] at h
        omega
      have hlt : ¬ getQ (List.replicate n c) (i - 1) < getQ (List.replicate n c) i := by
        rw [getQ_replicate, getQ_replicate]
        have hi1 : i - 1 < n := lt_of_le_of_lt (Nat.sub_le i 1) hi
        simp [hi, hi1]
      simp [localMaximaAux, h, hlt, ih]
    · rw [List.length_replicate] at h
      simp [localMaximaAux, h]

theorem find_peaks_replicate (n : ℕ) (c : ℚ) (pm : ℚ) :
    find_peaks (List.replicate n c) pm = ([], ⟨[], [], []⟩) := by
  simp [find_peaks, localMaxima, localMaximaAux_replicate]

/-- C3: when peak detection yields no candidate of sufficient prominence,
`peak_fwhm` returns normally with an empty peak-index list and empty width
arrays (and no warning) — distinguishable from a one-peak result; in
particular a flat constant lineout yields zero candidates for every
threshold. -/
theorem peak_fwhm_zero_peaks_empty :
    (∀ (frame : List (List ℚ)) (pm : ℚ) (pb : ℕ) (inv : Bool) (roi : List ℕ),
      (find_peaks (peak_fwhm frame pm pb inv roi).lineout pm).1 = [] →
      (peak_fwhm frame pm pb inv roi).peakmax = [] ∧
      (peak_fwhm frame pm pb inv roi).peakwidth = ⟨[], [], [], []⟩ ∧
      (peak_fwhm frame pm pb inv roi).warnedMultiplePeaks = false) ∧
    (∀ (n : ℕ) (c pm : ℚ), find_peaks (List.replicate n c) pm = ([], ⟨[], [], []⟩)) := by
  constructor
  · intro frame pm pb inv roi h
    rw [peak_fwhm_lineout] at h
    have h1 : ¬ 1 < (find_peaks (lineoutOf frame pb inv roi) pm).1.length := by
      rw [h]
      simp
    obtain ⟨hmax, hwarn⟩ := peak_fwhm_of_few frame pm pb inv roi h1
    refine ⟨hmax.trans h, ?_, hwarn⟩
    rw [peak_fwhm_peakwidth, hmax, h, peak_widths_nil]
  · exact fun n c pm => find_peaks_replicate n c pm

/-- Witness for C3: a flat 1x3 frame produces no candidates, an empty peak
list and empty width arrays. -/
theorem peak_fwhm_zero_peaks_empty_witness :
    (peak_fwhm [[3, 3, 3]] 25 8 false [0, 1, 0, 3]).peakmax = [] ∧
    (peak_fwhm [[3, 3, 3]] 25 8 false [0, 1, 0, 3]).peakwidth = ⟨[], [], [], []⟩ ∧
    (peak_fwhm [[3, 3, 3]] 25 8 false [0, 1, 0, 3]).warnedMultiplePeaks = false :=
  peak_fwhm_zero_peaks_empty.1 [[3, 3, 3]] 25 8 false [0, 1, 0, 3] (by
    norm_num [peak_fwhm, lineoutOf, workingOf, cropOf, pySlice, npMeanAxis0, find_peaks,
      localMaxima, localMaximaAux, plateauScan, getQ, List.getD])

/-- C6: the returned peak-index list has length at most one and the four
width arrays match its length, while the returned properties structure still
describes the full candidate set found by detection: one prominence (and one
pair of bases) per candidate that passed the prominence filter, even when
several candidates were found. -/
theorem peak_fwhm_output_lengths (frame : List (List ℚ)) (pm : ℚ) (pb : ℕ) (inv : Bool)
    (roi : List ℕ) :
    (peak_fwhm frame pm pb inv roi).peakmax.length ≤ 1 ∧
    (peak_fwhm frame pm pb inv roi).peakwidth.widths.length =
      (peak_fwhm frame pm pb inv roi).peakmax.length ∧
    (peak_fwhm frame pm pb inv roi).peakwidth.widthHeights.length =
      (peak_fwhm frame pm pb inv roi).peakmax.length ∧
    (peak_fwhm frame pm pb inv roi).peakwidth.leftIps.length =
      (peak_fwhm frame pm pb inv roi).peakmax.length ∧
    (peak_fwhm frame pm pb inv roi).peakwidth.rightIps.length =
      (peak_fwhm frame pm pb inv roi).peakmax.length ∧
    (peak_fwhm frame pm pb inv roi).props =
      (find_peaks (peak_fwhm frame pm pb inv roi).lineout pm).2 ∧
    (find_peaks (peak_fwhm frame pm pb inv roi).lineout pm).2.prominences.length =
      (find_peaks (peak_fwhm frame pm pb inv roi).lineout pm).1.length ∧
    (find_peaks (peak_fwhm frame pm pb inv roi).lineout pm).2.leftBases.length =
      (find_peaks (peak_fwhm frame pm pb inv roi).lineout pm).1.length ∧
    (find_peaks (peak_fwhm frame pm pb inv roi).lineout pm).2.rightBases.length =
      (find_peaks (peak_fwhm frame pm pb inv roi).lineout pm).1.length := by
  rw [peak_fwhm_lineout, peak_fwhm_props, peak_fwhm_peakwidth]
  refine ⟨?_, by simp [peak_widths], by simp [peak_widths], by simp [peak_widths],
    by simp [peak_widths], rfl, by simp [find_peaks], by simp [find_peaks],
    by simp [find_peaks]⟩
  by_cases h1 : 1 < (find_peaks (lineoutOf frame pb inv roi) pm).1.length
  · rw [(peak_fwhm_of_many frame pm pb inv roi h1).1]
    exact le_refl 1
  · rw [(peak_fwhm_of_few frame pm pb inv roi h1).1]
    omega

theorem npArgmax_lt : ∀ (l : List ℚ), l ≠ [] → npArgmax l < l.length := by
  intro l
  induction l with
  | nil => intro h; exact absurd rfl h
  | cons a t ih =>
    intro _
    cases t with
    | nil => simp [npArgmax]
    | cons b t2 =>
      by_cases hc : a < (b :: t2).getD (npArgmax (b :: t2)) 0
      · have ht := ih (by simp)
        simp only [List.length_cons] at ht
        simp only [npArgmax, hc, if_true, List.length_cons]
        omega
      · simp only [npArgmax, hc, if_false, List.length_cons]
        omega

theorem npArgmax_le_getD : ∀ (l : List ℚ) (i : ℕ), i < l.length →
    l.getD i 0 ≤ l.getD (npArgmax l) 0 := by
  intro l
  induction l with
  | nil => intro i hi; simp at hi
  | cons a t ih =>
    intro i hi
    cases t with
    | nil =>
      have : i = 0 := by simpa using hi
      subst this
      exact le_refl _
    | cons b t2 =>
      by_cases hc : a < (b :: t2).getD (npArgmax (b :: t2)) 0
      · simp only [npArgmax, hc, if_true, List.getD_cons_succ]
        cases i with
        | zero => exact le_of_lt hc
        | succ j =>
          simp only [List.getD_cons_succ]
          exact ih j (by simpa using hi)
      · simp only [npArgmax, hc, if_false, List.getD_cons_zero]
        cases i with
        | zero => simp
        | succ j =>
          simp only [List.getD_cons_succ]
          exact le_trans (ih j (by simpa using hi)) (not_lt.mp hc)

/-- C1: when detection finds more than one candidate, `peak_fwhm` warns,
selects a single candidate whose prominence is maximal among all candidates
(the argmax of the prominence array), and computes widths only for that one;
with exactly one candidate, that candidate is used and no warning is
emitted. -/
theorem peak_fwhm_selects_most_prominent (frame : List (List ℚ)) (pm : ℚ) (pb : ℕ)
    (inv : Bool) (roi : List ℕ) :
    (1 < (find_peaks (peak_fwhm frame pm pb inv roi).lineout pm).1.length →
      (peak_fwhm frame pm pb inv roi).warnedMultiplePeaks = true ∧
      ∃ j, j < (find_peaks (peak_fwhm frame pm pb inv roi).lineout pm).1.length ∧
        (peak_fwhm frame pm pb inv roi).peakmax =
          [(find_peaks (peak_fwhm frame pm pb inv roi).lineout pm).1.getD j 0] ∧
        (∀ i, i < (find_peaks (peak_fwhm frame pm pb inv roi).lineout pm).2.prominences.length →
          (find_peaks (peak_fwhm frame pm pb inv roi).lineout pm).2.prominences.getD i 0 ≤
          (find_peaks (peak_fwhm frame pm pb inv roi).lineout pm).2.prominences.getD j 0) ∧
        (peak_fwhm frame pm pb inv roi).peakwidth =
          peak_widths (peak_fwhm frame pm pb inv roi).lineout
            [(find_peaks (peak_fwhm frame pm pb inv roi).lineout pm).1.getD j 0] (1/2)) ∧
    ((find_peaks (peak_fwhm frame pm pb inv roi).lineout pm).1.length = 1 →
      (peak_fwhm frame pm pb inv roi).peakmax =
        (find_peaks (peak_fwhm frame pm pb inv roi).lineout pm).1 ∧
      (peak_fwhm frame pm pb inv roi).warnedMultiplePeaks = false ∧
      (peak_fwhm frame pm pb inv roi).peakwidth =
        peak_widths (peak_fwhm frame pm pb inv roi).lineout
          (find_peaks (peak_fwhm frame pm pb inv roi).lineout pm).1 (1/2)) := by
  rw [peak_fwhm_lineout]
  constructor
  · intro h1
    obtain ⟨hmax, hwarn⟩ := peak_fwhm_of_many frame pm pb inv roi h1
    refine ⟨hwarn, npArgmax (find_peaks (lineoutOf frame pb inv roi) pm).2.prominences,
      ?_, hmax, fun i hi => npArgmax_le_getD _ i hi, ?_⟩
    · have hne : (find_peaks (lineoutOf frame pb inv roi) pm).2.prominences ≠ [] := by
        have := find_peaks_prominences_length (lineoutOf frame pb inv roi) pm
        intro hnil
        rw [hnil] at this
        simp only [List.length_nil] at this
        omega
      have := npArgmax_lt _ hne
      rw [find_peaks_prominences_length] at this
      exact this
    · rw [peak_fwhm_peakwidth, hmax]
  · intro h1
    have h1' : ¬ 1 < (find_peaks (lineoutOf frame pb inv roi) pm).1.length := by omega
    obtain ⟨hmax, hwarn⟩ := peak_fwhm_of_few frame pm pb inv roi h1'
    refine ⟨hmax, hwarn, ?_⟩
    rw [peak_fwhm_peakwidth, hmax]

/-- Witness for C1: a lineout with two peaks of prominence 10 triggers the
warning branch and a single selected peak of maximal prominence. -/
theorem peak_fwhm_selects_most_prominent_witness :
    (peak_fwhm [[0, 10, 0, 10, 0]] 5 8 false [0, 1, 0, 5]).warnedMultiplePeaks = true ∧
    ∃ j, j < (find_peaks (peak_fwhm [[0, 10, 0, 10, 0]] 5 8 false [0, 1, 0, 5]).lineout 5).1.length ∧
      (peak_fwhm [[0, 10, 0, 10, 0]] 5 8 false [0, 1, 0, 5]).peakmax =
        [(find_peaks (peak_fwhm [[0, 10, 0, 10, 0]] 5 8 false [0, 1, 0, 5]).lineout 5).1.getD j 0] ∧
      (∀ i, i < (find_peaks (peak_fwhm [[0, 10, 0, 10, 0]] 5 8 false [0, 1, 0, 5]).lineout 5).2.prominences.length →
        (find_peaks (peak_fwhm [[0, 10, 0, 10, 0]] 5 8 false [0, 1, 0, 5]).lineout 5).2.prominences.getD i 0 ≤
        (find_peaks (peak_fwhm [[0, 10, 0, 10, 0]] 5 8 false [0, 1, 0, 5]).lineout 5).2.prominences.getD j 0) ∧
      (peak_fwhm [[0, 10, 0, 10, 0]] 5 8 false [0, 1, 0, 5]).peakwidth =
        peak_widths (peak_fwhm [[0, 10, 0, 10, 0]] 5 8 false [0, 1, 0, 5]).lineout
          [(find_peaks (peak_fwhm [[0, 10, 0, 10, 0]] 5 8 false [0, 1, 0, 5]).lineout 5).1.getD j 0] (1/2) :=
  (peak_fwhm_selects_most_prominent [[0, 10, 0, 10, 0]] 5 8 false [0, 1, 0, 5]).1 (by
    rw [peak_fwhm_lineout]
    norm_num [lineoutOf, workingOf, cropOf, pySlice, npMeanAxis0, find_peaks,
      localMaxima, localMaximaAux, plateauScan, promData, leftWalk, rightWalk, getQ, List.getD])

theorem getD_zipWith_add : ∀ (a b : List ℚ) (j : ℕ), j < a.length → j < b.length →
    (List.zipWith (· + ·) a b).getD j 0 = a.getD j 0 + b.getD j 0 := by
  intro a
  induction a with
  | nil => intro b j h _; simp at h
  | cons x xs ih =>
    intro b j h1 h2
    cases b with
    | nil => simp at h2
    | cons y ys =>
      cases j with
      | zero => simp
      | succ k =>
        simp only [List.zipWith_cons_cons, List.getD_cons_succ]
        exact ih ys k (by simpa using h1) (by simpa using h2)

theorem foldl_zipWith_spec : ∀ (rs : List (List ℚ)) (r : List ℚ) (w : ℕ), r.length = w →
    (∀ row ∈ rs, row.length = w) →
    (rs.foldl (fun acc row => List.zipWith (· + ·) acc row) r).length = w ∧
    (∀ j, j < w → (rs.foldl (fun acc row => List.zipWith (· + ·) acc row) r).getD j 0 =
      r.getD j 0 + (rs.map (fun row => row.getD j 0)).sum) := by
  intro rs
  induction rs with
  | nil => intro r w hr _; exact ⟨hr, fun j _ => by simp⟩
  | cons row rs ih =>
    intro r w hr hall
    have hrow : row.length = w := hall row (by simp)
    have hzip : (List.zipWith (· + ·) r row).length = w := by
      rw [List.length_zipWith]
      omega
    obtain ⟨hl, hv⟩ := ih (List.zipWith (· + ·) r row) w hzip (fun q hq => hall q (by simp [hq]))
    refine ⟨by simpa using hl, fun j hj => ?_⟩
    have hstep := hv j hj
    simp only [List.foldl_cons] at *
    rw [hstep, getD_zipWith_add r row j (by omega) (by omega)]
    simp [add_assoc]

theorem getD_map_div (l : List ℚ) (q : ℚ) (j : ℕ) (hj : j < l.length) :
    (l.map (fun v => v / q)).getD j 0 = l.getD j 0 / q := by
  rw [List.getD_eq_getElem _ _ (by simpa using hj), List.getD_eq_getElem _ _ hj,
    List.getElem_map]

/-- C4: for a non-empty (rectangular) analysis region, the lineout has one
entry per column, and each entry is the arithmetic mean of that column's
samples over all rows; with `invert = false` the analysis region is exactly
the ROI crop. -/
theorem peak_fwhm_lineout_column_means (frame : List (List ℚ)) (pm : ℚ) (pb : ℕ)
    (inv : Bool) (roi : List ℕ) (w : ℕ)
    (hne : workingOf frame pb inv roi ≠ [])
    (hrect : ∀ row ∈ workingOf frame pb inv roi, row.length = w) :
    (peak_fwhm frame pm pb inv roi).lineout.length = w ∧
    (∀ j, j < w → (peak_fwhm frame pm pb inv roi).lineout.getD j 0 =
      ((workingOf frame pb inv roi).map (fun row => row.getD j 0)).sum /
        ((workingOf frame pb inv roi).length : ℚ)) ∧
    (inv = false → workingOf frame pb inv roi = cropOf frame roi) := by
  rw [peak_fwhm_lineout]
  have hinv : inv = false → workingOf frame pb inv roi = cropOf frame roi := fun hfalse => by
    simp [workingOf, hfalse]
  obtain ⟨r, rs, hA⟩ := List.exists_cons_of_ne_nil hne
  have hr : r.length = w := hrect r (by rw [hA]; simp)
  have hrs : ∀ row ∈ rs, row.length = w := fun row hq => hrect row (by rw [hA]; simp [hq])
  obtain ⟨hlen, hval⟩ := foldl_zipWith_spec rs r w hr hrs
  unfold lineoutOf
  rw [hA]
  refine ⟨by simpa [npMeanAxis0] using hlen, fun j hj => ?_, fun hf => by
    rw [← hA]; exact hinv hf⟩
  show ((rs.foldl (fun acc row => List.zipWith (· + ·) acc row) r).map
      (fun v => v / (((r :: rs).length : ℕ) : ℚ))).getD j 0 = _
  rw [getD_map_div _ _ j (by omega), hval j hj]
  simp

/-- Witness for C4: a 2x2 region; both column means are as claimed. -/
theorem peak_fwhm_lineout_column_means_witness :
    (peak_fwhm [[1, 2], [3, 4]] 25 8 false [0, 2, 0, 2]).lineout.length = 2 ∧
    (∀ j, j < 2 → (peak_fwhm [[1, 2], [3, 4]] 25 8 false [0, 2, 0, 2]).lineout.getD j 0 =
      ((workingOf [[1, 2], [3, 4]] 8 false [0, 2, 0, 2]).map (fun row => row.getD j 0)).sum /
        ((workingOf [[1, 2], [3, 4]] 8 false [0, 2, 0, 2]).length : ℚ)) ∧
    (false = false → workingOf [[1, 2], [3, 4]] 8 false [0, 2, 0, 2] =
      cropOf [[1, 2], [3, 4]] [0, 2, 0, 2]) :=
  peak_fwhm_lineout_column_means [[1, 2], [3, 4]] 25 8 false [0, 2, 0, 2] 2
    (by decide) (by decide)

/-- C9: ROI bounds are Python slices, hence silently clamped to the frame's
extent: cropping with any ROI equals cropping with the clamped ROI, and the
whole analysis gives identical results on both (in particular the hard-coded
default ROI applied to a smaller frame analyses the full frame); a degenerate
ROI with `row_min ≥ row_max` (resp. `col_min ≥ col_max`) yields an empty crop
(resp. all-empty rows) rather than an error. -/
theorem peak_fwhm_roi_clamped (frame : List (List ℚ)) (pm : ℚ) (pb : ℕ) (inv : Bool)
    (a b c d : ℕ) (w : ℕ) (hrect : ∀ row ∈ frame, row.length = w) :
    (cropOf frame [a, b, c, d] = cropOf frame (clampRoi [a, b, c, d] frame.length w)) ∧
    (peak_fwhm frame pm pb inv [a, b, c, d] =
      peak_fwhm frame pm pb inv (clampRoi [a, b, c, d] frame.length w)) ∧
    (b ≤ a → cropOf frame [a, b, c, d] = []) ∧
    (d ≤ c → ∀ row ∈ cropOf frame [a, b, c, d], row = []) := by
  have hcrop : cropOf frame [a, b, c, d] = cropOf frame (clampRoi [a, b, c, d] frame.length w) := by
    unfold cropOf clampRoi
    simp only [List.getD_cons_zero, List.getD_cons_succ]
    rw [pySlice_clamp a b frame]
    apply List.map_congr_left
    intro row hrow
    have hmem : row ∈ frame :=
      List.mem_of_mem_take (List.mem_of_mem_drop hrow)
    have hwr : row.length = w := hrect row hmem
    rw [pySlice_clamp c d row, hwr]
  have hwork : workingOf frame pb inv [a, b, c, d] =
      workingOf frame pb inv (clampRoi [a, b, c, d] frame.length w) := by
    unfold workingOf
    rw [hcrop]
  have hline : lineoutOf frame pb inv [a, b, c, d] =
      lineoutOf frame pb inv (clampRoi [a, b, c, d] frame.length w) := by
    unfold lineoutOf
    rw [hwork]
  refine ⟨hcrop, ?_, fun hba => ?_, fun hdc row hrow => ?_⟩
  · unfold peak_fwhm
    rw [hline]
  · unfold cropOf
    simp only [List.getD_cons_zero, List.getD_cons_succ]
    rw [pySlice_nil_of_le a b frame hba]
    rfl
  · unfold cropOf at hrow
    simp only [List.getD_cons_zero, List.getD_cons_succ] at hrow
    obtain ⟨row0, _, hrow0⟩ := List.mem_map.mp hrow
    rw [← hrow0]
    exact pySlice_nil_of_le c d row0 hdc

/-- Witness for C9: the default ROI on a 2x3 frame equals the clamped ROI
analysis, and a reversed row ROI yields an empty crop. -/
theorem peak_fwhm_roi_clamped_witness :
    (peak_fwhm [[1, 2, 3], [4, 5, 6]] 25 8 false defaultRoi =
      peak_fwhm [[1, 2, 3], [4, 5, 6]] 25 8 false
        (clampRoi defaultRoi (2 : ℕ) (3 : ℕ))) ∧
    cropOf [[1, 2, 3], [4, 5, 6]] [5, 2, 0, 3] = [] :=
  ⟨(peak_fwhm_roi_clamped [[1, 2, 3], [4, 5, 6]] 25 8 false 0 1215 0 1935 3
      (by decide)).2.1,
   (peak_fwhm_roi_clamped [[1, 2, 3], [4, 5, 6]] 25 8 false 5 2 0 3 3
      (by decide)).2.2.1 (by decide)⟩

theorem spike_length (n k : ℕ) (c d : ℚ) : ((List.replicate n c).set k (c + d)).length = n := by
  simp

theorem getQ_spike (n k : ℕ) (c d : ℚ) (hk : k < n) (i : ℕ) :
    getQ ((List.replicate n c).set k (c + d)) i =
      if i = k then c + d else if i < n then c else 0 := by
  by_cases hik : i = k
  · subst hik
    rw [getQ_eq_getElem _ _ (by simpa using hk), List.getElem_set_self (by simpa using hk)]
    simp
  · by_cases hin : i < n
    · rw [getQ_eq_getElem _ _ (by simpa using hin),
        List.getElem_set_ne (fun hki => hik hki.symm) (by simpa using hin)]
      simp [hik, hin]
    · have hout : ((List.replicate n c).set k (c + d)).length ≤ i := by
        simpa using Nat.le_of_not_lt hin
      simp [getQ, List.getD_eq_getElem?_getD, List.getElem?_eq_none hout, hik, hin]

theorem spike_plateau (n k : ℕ) (c d : ℚ) (hk1 : k + 1 < n) (hd : d ≠ 0) (fuel : ℕ) :
    plateauScan ((List.replicate n c).set k (c + d)) (c + d) (k + 1) fuel = k + 1 := by
  cases fuel with
  | zero => rfl
  | succ fuel =>
    have hval : getQ ((List.replicate n c).set k (c + d)) (k + 1) = c := by
      rw [getQ_spike n k c d (by omega)]
      simp [Nat.succ_ne_self, hk1]
    simp [plateauScan, hval, self_eq_add_right, hd]

theorem spike_scan_after (n k : ℕ) (c d : ℚ) (hk : k < n) (hd : 0 < d) :
    ∀ fuel i, k < i → localMaximaAux ((List.replicate n c).set k (c + d)) i fuel = [] := by
  intro fuel
  induction fuel with
  | zero => intro i _; rfl
  | succ fuel ih =>
    intro i hi
    by_cases hlen : i + 1 < ((List.replicate n c).set k (c + d)).length
    · have hlen' : i + 1 < n := by simpa using hlen
      have hcond : ¬ getQ ((List.replicate n c).set k (c + d)) (i - 1) <
          getQ ((List.replicate n c).set k (c + d)) i := by
        rw [getQ_spike n k c d hk, getQ_spike n k c d hk]
        have hine : i ≠ k := by omega
        by_cases hik : i - 1 = k
        · rw [if_pos hik, if_neg hine, if_pos (show i < n by omega)]
          intro hcon
          linarith
        · rw [if_neg hik, if_pos (show i - 1 < n by omega), if_neg hine,
            if_pos (show i < n by omega)]
          exact lt_irrefl c
      simp only [localMaximaAux]
      rw [if_pos hlen, if_neg hcond]
      exact ih (i + 1) (by omega)
    · simp only [localMaximaAux]
      rw [if_neg hlen]

theorem spike_scan_before (n k : ℕ) (c d : ℚ) (hk0 : 1 ≤ k) (hk1 : k + 1 < n) (hd : 0 < d) :
    ∀ fuel i, 1 ≤ i → i ≤ k → n ≤ fuel + i →
      localMaximaAux ((List.replicate n c).set k (c + d)) i fuel = [k] := by
  intro fuel
  induction fuel with
  | zero => intro i h1 h2 h3; omega
  | succ fuel ih =>
    intro i h1 h2 h3
    have hlen : i + 1 < ((List.replicate n c).set k (c + d)).length := by
      rw [spike_length]
      omega
    by_cases hik : i = k
    · subst hik
      have hck : getQ ((List.replicate n c).set i (c + d)) i = c + d := by
        rw [getQ_spike n i c d (by omega)]
        simp
      have hc1 : getQ ((List.replicate n c).set i (c + d)) (i - 1) = c := by
        rw [getQ_spike n i c d (by omega)]
        rw [if_neg (by omega), if_pos (by omega)]
      have hlt : getQ ((List.replicate n c).set i (c + d)) (i - 1) <
          getQ ((List.replicate n c).set i (c + d)) i := by
        rw [hc1, hck]
        linarith
      have hplat : plateauScan ((List.replicate n c).set i (c + d))
          (getQ ((List.replicate n c).set i (c + d)) i) (i + 1)
          ((List.replicate n c).set i (c + d)).length = i + 1 := by
        rw [hck, spike_length]
        exact spike_plateau n i c d hk1 (ne_of_gt hd) n
      have hafter : getQ ((List.replicate n c).set i (c + d)) (i + 1) = c := by
        rw [getQ_spike n i c d (by omega)]
        rw [if_neg (by omega), if_pos (by omega)]
      simp only [localMaximaAux]
      rw [if_pos hlen, if_pos hlt, hplat, hafter, if_pos (by rw [hck]; linarith)]
      rw [spike_scan_after n i c d (by omega) hd fuel (i + 1 + 1) (by omega)]

      simp only [List.cons.injEq, and_true]
      omega
    · have hne : ¬ getQ ((List.replicate n c).set k (c + d)) (i - 1) <
          getQ ((List.replicate n c).set k (c + d)) i := by
        rw [getQ_spike n k c d (by omega), getQ_spike n k c d (by omega)]
        rw [if_neg (by omega), if_pos (by omega), if_neg hik, if_pos (by omega)]
        exact lt_irrefl c
      simp only [localMaximaAux]
      rw [if_pos hlen, if_neg hne]
      exact ih (i + 1) (by omega) (by omega) (by omega)

theorem localMaxima_spike (n k : ℕ) (c d : ℚ) (hk0 : 1 ≤ k) (hk1 : k + 1 < n) (hd : 0 < d) :
    localMaxima ((List.replicate n c).set k (c + d)) = [k] := by
  unfold localMaxima
  rw [spike_length]
  exact spike_scan_before n k c d hk0 hk1 hd n 1 (le_refl 1) hk0 (by omega)

theorem spike_leftWalk_aux (n k : ℕ) (c d : ℚ) (hk : k < n) (hd : 0 < d) (b : ℕ) :
    ∀ i, i < k → leftWalk ((List.replicate n c).set k (c + d)) (c + d) i c b = (c, b) := by
  intro i
  induction i with
  | zero => intro _; rfl
  | succ i ih =>
    intro hik
    have h1 : getQ ((List.replicate n c).set k (c + d)) (i + 1) = c := by
      rw [getQ_spike n k c d hk]
      rw [if_neg (by omega), if_pos (by omega)]
    have h2 : getQ ((List.replicate n c).set k (c + d)) i = c := by
      rw [getQ_spike n k c d hk]
      rw [if_neg (by omega), if_pos (by omega)]
    simp only [leftWalk]
    rw [if_pos (by rw [h1]; linarith), if_neg (by rw [h2]; exact lt_irrefl c)]
    exact ih (by omega)

theorem spike_leftWalk (n k : ℕ) (c d : ℚ) (hk0 : 1 ≤ k) (hk : k < n) (hd : 0 < d) :
    leftWalk ((List.replicate n c).set k (c + d)) (c + d) k (c + d) k = (c, k - 1) := by
  obtain ⟨m, rfl⟩ : ∃ m, k = m + 1 := ⟨k - 1, by omega⟩
  have hkv : getQ ((List.replicate n c).set (m + 1) (c + d)) (m + 1) = c + d := by
    rw [getQ_spike n (m + 1) c d hk]
    simp
  have hmv : getQ ((List.replicate n c).set (m + 1) (c + d)) m = c := by
    rw [getQ_spike n (m + 1) c d hk]
    rw [if_neg (by omega), if_pos (by omega)]
  simp only [leftWalk]
  rw [if_pos (by rw [hkv]), if_pos (by rw [hmv]; linarith), hmv]
  exact spike_leftWalk_aux n (m + 1) c d hk hd m m (by omega)

theorem spike_rightWalk_aux (n k : ℕ) (c d : ℚ) (hk : k < n) (hd : 0 < d) (b : ℕ) :
    ∀ fuel i, k < i → i < n → n ≤ fuel + i + 1 →
      rightWalk ((List.replicate n c).set k (c + d)) (c + d) fuel i c b = (c, b) := by
  intro fuel
  induction fuel with
  | zero => intro i _ _ _; rfl
  | succ fuel ih =>
    intro i hki hin hfuel
    by_cases hcond : i + 1 < n
    · have h1 : getQ ((List.replicate n c).set k (c + d)) i = c := by
        rw [getQ_spike n k c d hk]
        rw [if_neg (by omega), if_pos hin]
      have h2 : getQ ((List.replicate n c).set k (c + d)) (i + 1) = c := by
        rw [getQ_spike n k c d hk]
        rw [if_neg (by omega), if_pos hcond]
      simp only [rightWalk]
      rw [if_pos ⟨by rw [spike_length]; omega, by rw [h1]; linarith⟩,
        if_neg (by rw [h2]; exact lt_irrefl c)]
      exact ih (i + 1) (by omega) hcond (by omega)
    · simp only [rightWalk]
      rw [if_neg (fun hcon => hcond (by
        have := hcon.1
        rw [spike_length] at this
        exact this))]

theorem spike_rightWalk (n k : ℕ) (c d : ℚ) (hk1 : k + 1 < n) (hd : 0 < d) :
    rightWalk ((List.replicate n c).set k (c + d)) (c + d)
      ((List.replicate n c).set k (c + d)).length k (c + d) k = (c, k + 1) := by
  rw [spike_length]
  obtain ⟨m, rfl⟩ : ∃ m, n = m + 1 := ⟨n - 1, by omega⟩
  have hkv : getQ ((List.replicate (m + 1) c).set k (c + d)) k = c + d := by
    rw [getQ_spike (m + 1) k c d (by omega)]
    simp
  have h2 : getQ ((List.replicate (m + 1) c).set k (c + d)) (k + 1) = c := by
    rw [getQ_spike (m + 1) k c d (by omega)]
    rw [if_neg (by omega), if_pos (by omega)]
  simp only [rightWalk]
  rw [if_pos ⟨by rw [spike_length]; omega, by rw [hkv]⟩, if_pos (by rw [h2]; linarith), h2]
  exact spike_rightWalk_aux (m + 1) k c d (by omega) hd (k + 1) m (k + 1) (by omega)
    (by omega) (by omega)

theorem spike_promData (n k : ℕ) (c d : ℚ) (hk0 : 1 ≤ k) (hk1 : k + 1 < n) (hd : 0 < d) :
    promData ((List.replicate n c).set k (c + d)) k = ⟨d, k - 1, k + 1⟩ := by
  unfold promData
  have hck : getQ ((List.replicate n c).set k (c + d)) k = c + d := by
    rw [getQ_spike n k c d (by omega)]
    simp
  rw [hck]
  simp only [spike_leftWalk n k c d hk0 (by omega) hd, spike_rightWalk n k c d hk1 hd,
    max_self]
  rw [PromData.mk.injEq]
  refine ⟨by ring, rfl, rfl⟩

theorem find_peaks_spike (n k : ℕ) (c d : ℚ) (hk0 : 1 ≤ k) (hk1 : k + 1 < n) (hd : 0 < d)
    (pm : ℚ) (hpm : pm ≤ d) :
    find_peaks ((List.replicate n c).set k (c + d)) pm = ([k], ⟨[d], [k - 1], [k + 1]⟩) := by
  unfold find_peaks
  rw [localMaxima_spike n k c d hk0 hk1 hd]
  simp [spike_promData n k c d hk0 hk1 hd, hpm]

theorem lineout_one_row (row : List ℚ) : npMeanAxis0 [row] = row := by
  simp [npMeanAxis0]

/-- C5: when `invert` is true every ROI sample `s` is replaced by
`(2^pixbit - 1) - s` before the lineout is computed; `pixbit` has no effect
when `invert` is false; and a one-row frame that is a flat background `b` with
a single dip to `b - d` (depth `d > 0`, `d ≥ prominenceMin`) yields, under
inversion, exactly one detected peak at the dip position with prominence
exactly `d` (and no multiple-peaks warning). -/
theorem peak_fwhm_invert_dip :
    (∀ (frame : List (List ℚ)) (pm : ℚ) (pb : ℕ) (roi : List ℕ),
      (peak_fwhm frame pm pb true roi).lineout =
        npMeanAxis0 ((cropOf frame roi).map
          (fun row => row.map (fun s => ((2 : ℚ) ^ pb - 1) - s)))) ∧
    (∀ (frame : List (List ℚ)) (pm : ℚ) (pb pb' : ℕ) (roi : List ℕ),
      peak_fwhm frame pm pb false roi = peak_fwhm frame pm pb' false roi) ∧
    (∀ (n k : ℕ) (b d pm : ℚ) (pb : ℕ), 1 ≤ k → k + 1 < n → 0 < d → pm ≤ d →
      (peak_fwhm [(List.replicate n b).set k (b - d)] pm pb true [0, 1, 0, n]).peakmax =
        [k] ∧
      (peak_fwhm [(List.replicate n b).set k (b - d)] pm pb true
        [0, 1, 0, n]).props.prominences = [d] ∧
      (peak_fwhm [(List.replicate n b).set k (b - d)] pm pb true
        [0, 1, 0, n]).warnedMultiplePeaks = false) := by
  refine ⟨fun frame pm pb roi => ?_, fun frame pm pb pb' roi => ?_,
    fun n k b d pm pb hk0 hk1 hd hpm => ?_⟩
  · rw [peak_fwhm_lineout]
    simp [lineoutOf, workingOf]
  · have hline : lineoutOf frame pb false roi = lineoutOf frame pb' false roi := by
      simp [lineoutOf, workingOf]
    unfold peak_fwhm
    rw [hline]
  · have hcrop : cropOf [(List.replicate n b).set k (b - d)] [0, 1, 0, n] =
        [(List.replicate n b).set k (b - d)] := by
      have h1 : ((List.replicate n b).set k (b - d)).take n =
          (List.replicate n b).set k (b - d) :=
        List.take_of_length_le (by simp)
      simp [cropOf, pySlice, h1]
    have hwork : workingOf [(List.replicate n b).set k (b - d)] pb true [0, 1, 0, n] =
        [(List.replicate n ((2 : ℚ) ^ pb - 1 - b)).set k ((2 : ℚ) ^ pb - 1 - b + d)] := by
      unfold workingOf
      rw [if_pos rfl, hcrop]
      simp only [List.map_cons, List.map_nil, List.map_set, List.map_replicate]
      have harith : (2 : ℚ) ^ pb - 1 - (b - d) = (2 : ℚ) ^ pb - 1 - b + d := by ring
      rw [harith]
    have hline : lineoutOf [(List.replicate n b).set k (b - d)] pb true [0, 1, 0, n] =
        (List.replicate n ((2 : ℚ) ^ pb - 1 - b)).set k ((2 : ℚ) ^ pb - 1 - b + d) := by
      unfold lineoutOf
      rw [hwork, lineout_one_row]
    have hfp := find_peaks_spike n k ((2 : ℚ) ^ pb - 1 - b) d hk0 hk1 hd pm hpm
    have h1 : ¬ 1 < (find_peaks
        (lineoutOf [(List.replicate n b).set k (b - d)] pb true [0, 1, 0, n]) pm).1.length := by
      rw [hline, hfp]
      simp
    obtain ⟨hmax, hwarn⟩ := peak_fwhm_of_few [(List.replicate n b).set k (b - d)] pm pb true
      [0, 1, 0, n] h1
    rw [hline, hfp] at hmax
    refine ⟨hmax, ?_, hwarn⟩
    rw [peak_fwhm_props, hline, hfp]

/-- Witness for C5: background 10 with a dip to 5 at column 1 of a four-column
row; inversion at 8 bits gives the single peak `[1]` with prominence 5. -/
theorem peak_fwhm_invert_dip_witness :
    (peak_fwhm [(List.replicate 4 (10 : ℚ)).set 1 (10 - 5)] 3 8 true [0, 1, 0, 4]).peakmax =
      [1] ∧
    (peak_fwhm [(List.replicate 4 (10 : ℚ)).set 1 (10 - 5)] 3 8 true
      [0, 1, 0, 4]).props.prominences = [5] ∧
    (peak_fwhm [(List.replicate 4 (10 : ℚ)).set 1 (10 - 5)] 3 8 true
      [0, 1, 0, 4]).warnedMultiplePeaks = false :=
  peak_fwhm_invert_dip.2.2 4 1 10 5 3 8 (by decide) (by decide) (by norm_num) (by norm_num)

theorem plateauScan_ge (x : List ℚ) (v : ℚ) :
    ∀ fuel s, s ≤ plateauScan x v s fuel := by
  intro fuel
  induction fuel with
  | zero => intro s; exact le_refl s
  | succ fuel ih =>
    intro s
    by_cases hc : s + 1 < x.length ∧ getQ x s = v
    · simp only [plateauScan, if_pos hc]
      exact le_trans (by omega) (ih (s + 1))
    · simp only [plateauScan, if_neg hc]
      exact le_refl s

theorem plateauScan_eq_v (x : List ℚ) (v : ℚ) :
    ∀ fuel s m, s ≤ m → m < plateauScan x v s fuel → getQ x m = v := by
  intro fuel
  induction fuel with
  | zero =>
    intro s m h1 h2
    simp only [plateauScan] at h2
    omega
  | succ fuel ih =>
    intro s m h1 h2
    by_cases hc : s + 1 < x.length ∧ getQ x s = v
    · simp only [plateauScan, if_pos hc] at h2
      rcases Nat.eq_or_lt_of_le h1 with he | hl
      · rw [← he]
        exact hc.2
      · exact ih (s + 1) m hl h2
    · simp only [plateauScan, if_neg hc] at h2
      omega

theorem plateauScan_lt_length (x : List ℚ) (v : ℚ) :
    ∀ fuel s, s + 1 ≤ x.length → plateauScan x v s fuel + 1 ≤ x.length := by
  intro fuel
  induction fuel with
  | zero => intro s h; exact h
  | succ fuel ih =>
    intro s h
    by_cases hc : s + 1 < x.length ∧ getQ x s = v
    · simp only [plateauScan, if_pos hc]
      exact ih (s + 1) hc.1
    · simp only [plateauScan, if_neg hc]
      exact h

theorem localMaximaAux_shape (x : List ℚ) :
    ∀ fuel i, 1 ≤ i → ∀ p ∈ localMaximaAux x i fuel,
      ∃ le re, 1 ≤ le ∧ le ≤ p ∧ p ≤ re ∧ re + 2 ≤ x.length ∧
        getQ x (le - 1) < getQ x le ∧ getQ x (re + 1) < getQ x re ∧
        (∀ m, le ≤ m → m ≤ re → getQ x m = getQ x le) := by
  intro fuel
  induction fuel with
  | zero => intro i _ p hp; simp [localMaximaAux] at hp
  | succ fuel ih =>
    intro i hi p hp
    by_cases hn : i + 1 < x.length
    · rw [localMaximaAux, if_pos hn] at hp
      by_cases hrise : getQ x (i - 1) < getQ x i
      · rw [if_pos hrise] at hp
        by_cases hfall : getQ x (plateauScan x (getQ x i) (i + 1) x.length) < getQ x i
        · rw [if_pos hfall] at hp
          rcases List.mem_cons.mp hp with he | ht
          · subst he
            have hge : i + 1 ≤ plateauScan x (getQ x i) (i + 1) x.length :=
              plateauScan_ge x (getQ x i) x.length (i + 1)
            have hlt : plateauScan x (getQ x i) (i + 1) x.length + 1 ≤ x.length :=
              plateauScan_lt_length x (getQ x i) x.length (i + 1) hn
            have hplat : ∀ m, i + 1 ≤ m → m < plateauScan x (getQ x i) (i + 1) x.length →
                getQ x m = getQ x i :=
              fun m h1 h2 => plateauScan_eq_v x (getQ x i) x.length (i + 1) m h1 h2
            refine ⟨i, plateauScan x (getQ x i) (i + 1) x.length - 1, hi, by omega, by omega,
              by omega, ?_, ?_, ?_⟩
            · exact hrise
            · have hre : plateauScan x (getQ x i) (i + 1) x.length - 1 + 1 =
                  plateauScan x (getQ x i) (i + 1) x.length := by omega
              rw [hre]
              have hval : getQ x (plateauScan x (getQ x i) (i + 1) x.length - 1) = getQ x i := by
                rcases Nat.eq_or_lt_of_le hge with he2 | hl2
                · rw [show plateauScan x (getQ x i) (i + 1) x.length - 1 = i by omega]
                · exact hplat _ (by omega) (by omega)
              rw [hval]
              exact hfall
            · intro m h1 h2
              rcases Nat.eq_or_lt_of_le h1 with he2 | hl2
              · rw [← he2]
              · exact hplat m (by omega) (by omega)
          · exact ih _ (by omega) p ht
        · rw [if_neg hfall] at hp
          exact ih _ (by omega) p hp
      · rw [if_neg hrise] at hp
        exact ih _ (by omega) p hp
    · rw [localMaximaAux, if_neg hn] at hp
      simp at hp

theorem localMaxima_shape (x : List ℚ) (p : ℕ) (hp : p ∈ localMaxima x) :
    ∃ le re, 1 ≤ le ∧ le ≤ p ∧ p ≤ re ∧ re + 2 ≤ x.length ∧
      getQ x (le - 1) < getQ x le ∧ getQ x (re + 1) < getQ x re ∧
      (∀ m, le ≤ m → m ≤ re → getQ x m = getQ x le) :=
  localMaximaAux_shape x x.length 1 (le_refl 1) p hp

theorem leftWalk_min_le (x : List ℚ) (xp : ℚ) :
    ∀ i a bb, (leftWalk x xp i a bb).1 ≤ a := by
  intro i
  induction i with
  | zero => intro a bb; exact le_refl a
  | succ i ih =>
    intro a bb
    by_cases h1 : getQ x (i + 1) ≤ xp
    · by_cases h2 : getQ x i < a
      · simp only [leftWalk, if_pos h1, if_pos h2]
        exact le_trans (ih _ _) (le_of_lt h2)
      · simp only [leftWalk, if_pos h1, if_neg h2]
        exact ih _ _
    · simp only [leftWalk, if_neg h1]
      exact le_refl a

theorem leftWalk_le_visited (x : List ℚ) (xp : ℚ) :
    ∀ i a bb j, j < i → (∀ m, j < m → m ≤ i → getQ x m ≤ xp) →
      (leftWalk x xp i a bb).1 ≤ getQ x j := by
  intro i
  induction i with
  | zero => intro a bb j hj _; omega
  | succ i ih =>
    intro a bb j hj hall
    have h1 : getQ x (i + 1) ≤ xp := hall (i + 1) hj (le_refl _)
    rcases Nat.lt_succ_iff_lt_or_eq.mp hj with hjlt | hjeq
    · by_cases h2 : getQ x i < a
      · simp only [leftWalk, if_pos h1, if_pos h2]
        exact ih _ _ j hjlt (fun m hm1 hm2 => hall m hm1 (by omega))
      · simp only [leftWalk, if_pos h1, if_neg h2]
        exact ih _ _ j hjlt (fun m hm1 hm2 => hall m hm1 (by omega))
    · subst hjeq
      by_cases h2 : getQ x j < a
      · simp only [leftWalk, if_pos h1, if_pos h2]
        exact leftWalk_min_le x xp _ _ _
      · simp only [leftWalk, if_pos h1, if_neg h2]
        exact le_trans (leftWalk_min_le x xp _ _ _) (not_lt.mp h2)

theorem leftWalk_base_val (x : List ℚ) (xp : ℚ) :
    ∀ i a bb, getQ x bb = a →
      getQ x (leftWalk x xp i a bb).2 = (leftWalk x xp i a bb).1 := by
  intro i
  induction i with
  | zero => intro a bb h; exact h
  | succ i ih =>
    intro a bb h
    by_cases h1 : getQ x (i + 1) ≤ xp
    · by_cases h2 : getQ x i < a
      · simp only [leftWalk, if_pos h1, if_pos h2]
        exact ih _ _ rfl
      · simp only [leftWalk, if_pos h1, if_neg h2]
        exact ih _ _ h
    · simp only [leftWalk, if_neg h1]
      exact h

theorem leftWalk_base_le (x : List ℚ) (xp : ℚ) :
    ∀ i a bb, (leftWalk x xp i a bb).2 ≤ max bb i := by
  intro i
  induction i with
  | zero => intro a bb; simp [leftWalk]
  | succ i ih =>
    intro a bb
    by_cases h1 : getQ x (i + 1) ≤ xp
    · by_cases h2 : getQ x i < a
      · simp only [leftWalk, if_pos h1, if_pos h2]
        exact le_trans (ih _ _) (by omega)
      · simp only [leftWalk, if_pos h1, if_neg h2]
        exact le_trans (ih _ _) (by omega)
    · simp only [leftWalk, if_neg h1]
      omega

theorem rightWalk_min_le (x : List ℚ) (xp : ℚ) :
    ∀ fuel i a bb, (rightWalk x xp fuel i a bb).1 ≤ a := by
  intro fuel
  induction fuel with
  | zero => intro i a bb; exact le_refl a
  | succ fuel ih =>
    intro i a bb
    by_cases h1 : i + 1 < x.length ∧ getQ x i ≤ xp
    · by_cases h2 : getQ x (i + 1) < a
      · simp only [rightWalk, if_pos h1, if_pos h2]
        exact le_trans (ih _ _ _) (le_of_lt h2)
      · simp only [rightWalk, if_pos h1, if_neg h2]
        exact ih _ _ _
    · simp only [rightWalk, if_neg h1]
      exact le_refl a

theorem rightWalk_le_visited (x : List ℚ) (xp : ℚ) :
    ∀ fuel i a bb j, i < j → j + 1 ≤ x.length →
      (∀ m, i ≤ m → m < j → getQ x m ≤ xp) → j - i ≤ fuel →
      (rightWalk x xp fuel i a bb).1 ≤ getQ x j := by
  intro fuel
  induction fuel with
  | zero => intro i a bb j h1 _ _ h4; omega
  | succ fuel ih =>
    intro i a bb j hij hjlen hall hfuel
    have hcond : i + 1 < x.length ∧ getQ x i ≤ xp :=
      ⟨by omega, hall i (le_refl i) hij⟩
    rcases Nat.eq_or_lt_of_le (Nat.succ_le_of_lt hij) with he | hl
    · by_cases h2 : getQ x (i + 1) < a
      · simp only [rightWalk, if_pos hcond, if_pos h2]
        rw [← he]
        exact rightWalk_min_le x xp _ _ _ _
      · simp only [rightWalk, if_pos hcond, if_neg h2]
        rw [← he]
        exact le_trans (rightWalk_min_le x xp _ _ _ _) (not_lt.mp h2)
    · by_cases h2 : getQ x (i + 1) < a
      · simp only [rightWalk, if_pos hcond, if_pos h2]
        exact ih _ _ _ j hl hjlen (fun m hm1 hm2 => hall m (by omega) hm2) (by omega)
      · simp only [rightWalk, if_pos hcond, if_neg h2]
        exact ih _ _ _ j hl hjlen (fun m hm1 hm2 => hall m (by omega) hm2) (by omega)

theorem rightWalk_base_val (x : List ℚ) (xp : ℚ) :
    ∀ fuel i a bb, getQ x bb = a →
      getQ x (rightWalk x xp fuel i a bb).2 = (rightWalk x xp fuel i a bb).1 := by
  intro fuel
  induction fuel with
  | zero => intro i a bb h; exact h
  | succ fuel ih =>
    intro i a bb h
    by_cases h1 : i + 1 < x.length ∧ getQ x i ≤ xp
    · by_cases h2 : getQ x (i + 1) < a
      · simp only [rightWalk, if_pos h1, if_pos h2]
        exact ih _ _ _ rfl
      · simp only [rightWalk, if_pos h1, if_neg h2]
        exact ih _ _ _ h
    · simp only [rightWalk, if_neg h1]
      exact h

theorem rightWalk_base_ge (x : List ℚ) (xp : ℚ) :
    ∀ fuel i a bb, min bb i ≤ (rightWalk x xp fuel i a bb).2 := by
  intro fuel
  induction fuel with
  | zero => intro i a bb; simp only [rightWalk]; omega
  | succ fuel ih =>
    intro i a bb
    by_cases h1 : i + 1 < x.length ∧ getQ x i ≤ xp
    · by_cases h2 : getQ x (i + 1) < a
      · simp only [rightWalk, if_pos h1, if_pos h2]
        have hrec := ih (i + 1) (getQ x (i + 1)) (i + 1)
        omega
      · simp only [rightWalk, if_pos h1, if_neg h2]
        have hrec := ih (i + 1) a bb
        omega
    · simp only [rightWalk, if_neg h1]
      omega

theorem rightWalk_base_le (x : List ℚ) (xp : ℚ) :
    ∀ fuel i a bb, (rightWalk x xp fuel i a bb).2 ≤ max bb (x.length - 1) := by
  intro fuel
  induction fuel with
  | zero => intro i a bb; simp only [rightWalk]; omega
  | succ fuel ih =>
    intro i a bb
    by_cases h1 : i + 1 < x.length ∧ getQ x i ≤ xp
    · have hi1 : i + 1 ≤ x.length - 1 := by omega
      by_cases h2 : getQ x (i + 1) < a
      · simp only [rightWalk, if_pos h1, if_pos h2]
        have hrec := ih (i + 1) (getQ x (i + 1)) (i + 1)
        omega
      · simp only [rightWalk, if_pos h1, if_neg h2]
        have hrec := ih (i + 1) a bb
        omega
    · simp only [rightWalk, if_neg h1]
      omega

theorem promData_spec (x : List ℚ) (p : ℕ) (hp : p ∈ localMaxima x) :
    0 < (promData x p).prom ∧
    (promData x p).leftBase < p ∧
    p < (promData x p).rightBase ∧
    (promData x p).rightBase + 1 ≤ x.length ∧
    getQ x (promData x p).leftBase ≤ getQ x p - (promData x p).prom ∧
    getQ x (promData x p).rightBase ≤ getQ x p - (promData x p).prom ∧
    1 ≤ p ∧ p + 2 ≤ x.length := by
  obtain ⟨le, re, hle1, hlep, hpre, hre2, hrise, hfall, hplat⟩ := localMaxima_shape x p hp
  have hxple : getQ x p = getQ x le := hplat p hlep hpre
  have hlmin_lt : (leftWalk x (getQ x p) p (getQ x p) p).1 < getQ x p := by
    have hall : ∀ m, le - 1 < m → m ≤ p → getQ x m ≤ getQ x p := by
      intro m h1 h2
      rw [hplat m (by omega) (by omega), hxple]
    refine lt_of_le_of_lt
      (leftWalk_le_visited x (getQ x p) p (getQ x p) p (le - 1) (by omega) hall) ?_
    calc getQ x (le - 1) < getQ x le := hrise
      _ = getQ x p := hxple.symm
  have hrmin_lt : (rightWalk x (getQ x p) x.length p (getQ x p) p).1 < getQ x p := by
    have hall : ∀ m, p ≤ m → m < re + 1 → getQ x m ≤ getQ x p := by
      intro m h1 h2
      rw [hplat m (by omega) (by omega), hxple]
    refine lt_of_le_of_lt
      (rightWalk_le_visited x (getQ x p) x.length p (getQ x p) p (re + 1)
        (by omega) (by omega) hall (by omega)) ?_
    calc getQ x (re + 1) < getQ x re := hfall
      _ = getQ x p := by rw [hplat re (by omega) (by omega), hxple]
  have hpd : promData x p = ⟨getQ x p - max (leftWalk x (getQ x p) p (getQ x p) p).1
      (rightWalk x (getQ x p) x.length p (getQ x p) p).1,
      (leftWalk x (getQ x p) p (getQ x p) p).2,
      (rightWalk x (getQ x p) x.length p (getQ x p) p).2⟩ := rfl
  have hlval : getQ x (leftWalk x (getQ x p) p (getQ x p) p).2 =
      (leftWalk x (getQ x p) p (getQ x p) p).1 :=
    leftWalk_base_val x (getQ x p) p (getQ x p) p rfl
  have hrval : getQ x (rightWalk x (getQ x p) x.length p (getQ x p) p).2 =
      (rightWalk x (getQ x p) x.length p (getQ x p) p).1 :=
    rightWalk_base_val x (getQ x p) x.length p (getQ x p) p rfl
  have hlble : (leftWalk x (getQ x p) p (getQ x p) p).2 ≤ p := by
    have := leftWalk_base_le x (getQ x p) p (getQ x p) p
    omega
  have hlbne : (leftWalk x (getQ x p) p (getQ x p) p).2 ≠ p := by
    intro he
    have h1 : getQ x p = (leftWalk x (getQ x p) p (getQ x p) p).1 := by
      conv_lhs => rw [← he]
      exact hlval
    exact lt_irrefl _ (lt_of_lt_of_le hlmin_lt (le_of_eq h1))
  have hrbge : p ≤ (rightWalk x (getQ x p) x.length p (getQ x p) p).2 := by
    have := rightWalk_base_ge x (getQ x p) x.length p (getQ x p) p
    omega
  have hrbne : (rightWalk x (getQ x p) x.length p (getQ x p) p).2 ≠ p := by
    intro he
    have h1 : getQ x p = (rightWalk x (getQ x p) x.length p (getQ x p) p).1 := by
      conv_lhs => rw [← he]
      exact hrval
    exact lt_irrefl _ (lt_of_lt_of_le hrmin_lt (le_of_eq h1))
  have hrble : (rightWalk x (getQ x p) x.length p (getQ x p) p).2 ≤ x.length - 1 := by
    have := rightWalk_base_le x (getQ x p) x.length p (getQ x p) p
    omega
  rw [hpd]
  dsimp only
  refine ⟨sub_pos.mpr (max_lt hlmin_lt hrmin_lt), by omega, by omega, by omega, ?_, ?_,
    by omega, by omega⟩
  · show getQ x (leftWalk x (getQ x p) p (getQ x p) p).2 ≤
      getQ x p - (getQ x p - max (leftWalk x (getQ x p) p (getQ x p) p).1
        (rightWalk x (getQ x p) x.length p (getQ x p) p).1)
    rw [sub_sub_cancel, hlval]
    exact le_max_left _ _
  · show getQ x (rightWalk x (getQ x p) x.length p (getQ x p) p).2 ≤
      getQ x p - (getQ x p - max (leftWalk x (getQ x p) p (getQ x p) p).1
        (rightWalk x (getQ x p) x.length p (getQ x p) p).1)
    rw [sub_sub_cancel, hrval]
    exact le_max_right _ _

theorem widthLeftWalk_ge (x : List ℚ) (h : ℚ) (lb : ℕ) :
    ∀ i, lb ≤ i → lb ≤ widthLeftWalk x h lb i := by
  intro i
  induction i with
  | zero => intro hi; exact hi
  | succ i ih =>
    intro hi
    by_cases hc : lb < i + 1 ∧ h < getQ x (i + 1)
    · simp only [widthLeftWalk, if_pos hc]
      exact ih (by omega)
    · simp only [widthLeftWalk, if_neg hc]
      exact hi

theorem widthLeftWalk_le (x : List ℚ) (h : ℚ) (lb : ℕ) :
    ∀ i, widthLeftWalk x h lb i ≤ i := by
  intro i
  induction i with
  | zero => exact le_refl 0
  | succ i ih =>
    by_cases hc : lb < i + 1 ∧ h < getQ x (i + 1)
    · simp only [widthLeftWalk, if_pos hc]
      exact le_trans ih (by omega)
    · simp only [widthLeftWalk, if_neg hc]
      exact le_refl _

theorem widthLeftWalk_stop (x : List ℚ) (h : ℚ) (lb : ℕ) :
    ∀ i, ¬ (lb < widthLeftWalk x h lb i ∧ h < getQ x (widthLeftWalk x h lb i)) := by
  intro i
  induction i with
  | zero =>
    simp only [widthLeftWalk]
    omega
  | succ i ih =>
    by_cases hc : lb < i + 1 ∧ h < getQ x (i + 1)
    · simp only [widthLeftWalk, if_pos hc]
      exact ih
    · simp only [widthLeftWalk, if_neg hc]
      exact hc

theorem widthLeftWalk_above (x : List ℚ) (h : ℚ) (lb : ℕ) :
    ∀ i m, widthLeftWalk x h lb i < m → m ≤ i → h < getQ x m := by
  intro i
  induction i with
  | zero => intro m h1 h2; omega
  | succ i ih =>
    intro m h1 h2
    by_cases hc : lb < i + 1 ∧ h < getQ x (i + 1)
    · rw [widthLeftWalk, if_pos hc] at h1
      rcases Nat.lt_succ_iff_lt_or_eq.mp (Nat.lt_succ_of_le h2) with hm | hm
      · exact ih m h1 (by omega)
      · rw [hm]
        exact hc.2
    · rw [widthLeftWalk, if_neg hc] at h1
      omega

theorem widthRightWalk_ge (x : List ℚ) (h : ℚ) (rb : ℕ) :
    ∀ fuel i, i ≤ widthRightWalk x h rb fuel i := by
  intro fuel
  induction fuel with
  | zero => intro i; exact le_refl i
  | succ fuel ih =>
    intro i
    by_cases hc : i < rb ∧ h < getQ x i
    · simp only [widthRightWalk, if_pos hc]
      exact le_trans (by omega) (ih (i + 1))
    · simp only [widthRightWalk, if_neg hc]
      exact le_refl _

theorem widthRightWalk_le (x : List ℚ) (h : ℚ) (rb : ℕ) :
    ∀ fuel i, i ≤ rb → widthRightWalk x h rb fuel i ≤ rb := by
  intro fuel
  induction fuel with
  | zero => intro i hi; exact hi
  | succ fuel ih =>
    intro i hi
    by_cases hc : i < rb ∧ h < getQ x i
    · simp only [widthRightWalk, if_pos hc]
      exact ih (i + 1) (by omega)
    · simp only [widthRightWalk, if_neg hc]
      exact hi

theorem widthRightWalk_stop (x : List ℚ) (h : ℚ) (rb : ℕ) :
    ∀ fuel i, rb - i ≤ fuel →
      ¬ (widthRightWalk x h rb fuel i < rb ∧ h < getQ x (widthRightWalk x h rb fuel i)) := by
  intro fuel
  induction fuel with
  | zero =>
    intro i hfuel
    simp only [widthRightWalk]
    omega
  | succ fuel ih =>
    intro i hfuel
    by_cases hc : i < rb ∧ h < getQ x i
    · simp only [widthRightWalk, if_pos hc]
      exact ih (i + 1) (by omega)
    · simp only [widthRightWalk, if_neg hc]
      exact hc

theorem widthRightWalk_above (x : List ℚ) (h : ℚ) (rb : ℕ) :
    ∀ fuel i m, i ≤ m → m < widthRightWalk x h rb fuel i → h < getQ x m := by
  intro fuel
  induction fuel with
  | zero =>
    intro i m h1 h2
    simp only [widthRightWalk] at h2
    omega
  | succ fuel ih =>
    intro i m h1 h2
    by_cases hc : i < rb ∧ h < getQ x i
    · rw [widthRightWalk, if_pos hc] at h2
      rcases Nat.eq_or_lt_of_le h1 with he | hl
      · rw [← he]
        exact hc.2
      · exact ih (i + 1) m hl h2
    · rw [widthRightWalk, if_neg hc] at h2
      omega

theorem widthLeftWalk_step (x : List ℚ) (h : ℚ) (lb i : ℕ) (h1 : lb < i)
    (h2 : h < getQ x i) : widthLeftWalk x h lb i = widthLeftWalk x h lb (i - 1) := by
  obtain ⟨m, rfl⟩ : ∃ m, i = m + 1 := ⟨i - 1, by omega⟩
  simp only [widthLeftWalk]
  rw [if_pos ⟨h1, h2⟩]
  rfl

theorem widthRightWalk_step (x : List ℚ) (h : ℚ) (rb fuel i : ℕ) (h1 : i < rb)
    (h2 : h < getQ x i) :
    widthRightWalk x h rb (fuel + 1) i = widthRightWalk x h rb fuel (i + 1) := by
  simp only [widthRightWalk]
  rw [if_pos ⟨h1, h2⟩]

theorem widthLeftWalk_spec (x : List ℚ) (lb p : ℕ) (h : ℚ)
    (hlbp : lb < p) (hhp : h < getQ x p) (hxlb : getQ x lb < h) :
    lb ≤ widthLeftWalk x h lb p ∧ widthLeftWalk x h lb p < p ∧
    getQ x (widthLeftWalk x h lb p) ≤ h ∧ h < getQ x (widthLeftWalk x h lb p + 1) := by
  have hstep : widthLeftWalk x h lb p = widthLeftWalk x h lb (p - 1) :=
    widthLeftWalk_step x h lb p hlbp hhp
  have hge : lb ≤ widthLeftWalk x h lb p := widthLeftWalk_ge x h lb p (le_of_lt hlbp)
  have hlt : widthLeftWalk x h lb p < p := by
    have := widthLeftWalk_le x h lb (p - 1)
    omega
  have habove : ∀ m, widthLeftWalk x h lb p < m → m ≤ p → h < getQ x m := by
    intro m h1 h2
    rcases Nat.eq_or_lt_of_le h2 with he | hl
    · subst he
      exact hhp
    · rw [hstep] at h1
      exact widthLeftWalk_above x h lb (p - 1) m h1 (by omega)
  have hstop := widthLeftWalk_stop x h lb p
  have hxil : getQ x (widthLeftWalk x h lb p) ≤ h := by
    by_cases hq : h < getQ x (widthLeftWalk x h lb p)
    · have hnlt : ¬ lb < widthLeftWalk x h lb p := fun hcon => hstop ⟨hcon, hq⟩
      have heq : widthLeftWalk x h lb p = lb := by omega
      rw [heq] at hq
      linarith
    · exact not_lt.mp hq
  exact ⟨hge, hlt, hxil, habove _ (by omega) (by omega)⟩

theorem widthRightWalk_spec (x : List ℚ) (rb p : ℕ) (h : ℚ)
    (hprb : p < rb) (hrblen : rb + 1 ≤ x.length) (hhp : h < getQ x p)
    (hxrb : getQ x rb < h) (_hpn : p + 2 ≤ x.length) :
    p < widthRightWalk x h rb x.length p ∧ widthRightWalk x h rb x.length p ≤ rb ∧
    getQ x (widthRightWalk x h rb x.length p) ≤ h ∧
    h < getQ x (widthRightWalk x h rb x.length p - 1) := by
  obtain ⟨fl, hfl⟩ : ∃ fl, x.length = fl + 1 := ⟨x.length - 1, by omega⟩
  have hstep : widthRightWalk x h rb x.length p = widthRightWalk x h rb fl (p + 1) := by
    conv_lhs => rw [hfl]
    exact widthRightWalk_step x h rb fl p hprb hhp
  have hge : p + 1 ≤ widthRightWalk x h rb x.length p := by
    rw [hstep]
    exact widthRightWalk_ge x h rb fl (p + 1)
  have hle : widthRightWalk x h rb x.length p ≤ rb :=
    widthRightWalk_le x h rb x.length p (le_of_lt hprb)
  have habove : ∀ m, p ≤ m → m < widthRightWalk x h rb x.length p → h < getQ x m := by
    intro m h1 h2
    rcases Nat.eq_or_lt_of_le h1 with he | hl
    · rw [← he]
      exact hhp
    · rw [hstep] at h2
      exact widthRightWalk_above x h rb fl (p + 1) m hl h2
  have hstop := widthRightWalk_stop x h rb x.length p (by omega)
  have hxir : getQ x (widthRightWalk x h rb x.length p) ≤ h := by
    by_cases hq : h < getQ x (widthRightWalk x h rb x.length p)
    · have hnlt : ¬ widthRightWalk x h rb x.length p < rb := fun hcon => hstop ⟨hcon, hq⟩
      have heq : widthRightWalk x h rb x.length p = rb := by omega
      rw [heq] at hq
      linarith
    · exact not_lt.mp hq
  exact ⟨by omega, hle, hxir, habove _ (by omega) (by omega)⟩

theorem interp_left_cross (x : List ℚ) (il : ℕ) (h : ℚ)
    (h1 : getQ x il ≤ h) (h2 : h < getQ x (il + 1)) :
    interp x ((il : ℚ) +
      (if getQ x il < h then (h - getQ x il) / (getQ x (il + 1) - getQ x il) else 0)) = h := by
  by_cases hfl : getQ x il < h
  · rw [if_pos hfl]
    have hden : 0 < getQ x (il + 1) - getQ x il := by linarith
    have hf0 : 0 < (h - getQ x il) / (getQ x (il + 1) - getQ x il) :=
      div_pos (by linarith) hden
    have hf1 : (h - getQ x il) / (getQ x (il + 1) - getQ x il) < 1 :=
      (div_lt_one hden).mpr (by linarith)
    have hfloor : ⌊(il : ℚ) + (h - getQ x il) / (getQ x (il + 1) - getQ x il)⌋₊ = il := by
      rw [Nat.floor_eq_iff (by positivity)]
      constructor
      · linarith
      · linarith
    unfold interp
    rw [hfloor]
    have hmul : (h - getQ x il) / (getQ x (il + 1) - getQ x il) *
        (getQ x (il + 1) - getQ x il) = h - getQ x il :=
      div_mul_cancel₀ _ (ne_of_gt hden)
    linear_combination hmul
  · rw [if_neg hfl]
    have heq : getQ x il = h := le_antisymm h1 (not_lt.mp hfl)
    rw [add_zero]
    unfold interp
    rw [Nat.floor_natCast]
    simp [heq]

theorem interp_right_cross (x : List ℚ) (ir : ℕ) (h : ℚ) (hir : 1 ≤ ir)
    (h1 : getQ x ir ≤ h) (h2 : h < getQ x (ir - 1)) :
    interp x ((ir : ℚ) -
      (if getQ x ir < h then (h - getQ x ir) / (getQ x (ir - 1) - getQ x ir) else 0)) = h := by
  by_cases hfr : getQ x ir < h
  · rw [if_pos hfr]
    have hden : 0 < getQ x (ir - 1) - getQ x ir := by linarith
    have hf0 : 0 < (h - getQ x ir) / (getQ x (ir - 1) - getQ x ir) :=
      div_pos (by linarith) hden
    have hf1 : (h - getQ x ir) / (getQ x (ir - 1) - getQ x ir) < 1 :=
      (div_lt_one hden).mpr (by linarith)
    have hcast : ((ir - 1 : ℕ) : ℚ) = (ir : ℚ) - 1 := by
      have : (1 : ℕ) ≤ ir := hir
      push_cast [this]
      ring
    have hone : (1 : ℚ) ≤ (ir : ℚ) := by exact_mod_cast hir
    have hnn : (0 : ℚ) ≤ (ir : ℚ) - (h - getQ x ir) / (getQ x (ir - 1) - getQ x ir) := by
      linarith
    have hfloor : ⌊(ir : ℚ) - (h - getQ x ir) / (getQ x (ir - 1) - getQ x ir)⌋₊ = ir - 1 := by
      rw [Nat.floor_eq_iff hnn]
      constructor
      · rw [hcast]
        linarith
      · rw [hcast]
        linarith
    unfold interp
    rw [hfloor]
    have hsucc : ir - 1 + 1 = ir := Nat.succ_pred_eq_of_pos hir
    rw [hsucc, hcast]
    have hmul : (h - getQ x ir) / (getQ x (ir - 1) - getQ x ir) *
        (getQ x (ir - 1) - getQ x ir) = h - getQ x ir :=
      div_mul_cancel₀ _ (ne_of_gt hden)
    linear_combination hmul
  · rw [if_neg hfr]
    have heq : getQ x ir = h := le_antisymm h1 (not_lt.mp hfr)
    rw [sub_zero]
    unfold interp
    rw [Nat.floor_natCast]
    simp [heq]

theorem peakWidthOne_spec (x : List ℚ) (p : ℕ) (hp : p ∈ localMaxima x) :
    ∃ lip rip,
      peakWidthOne x (1/2) p = (rip - lip, getQ x p - (promData x p).prom / 2, lip, rip) ∧
      interp x lip = getQ x p - (promData x p).prom / 2 ∧
      interp x rip = getQ x p - (promData x p).prom / 2 ∧
      lip ≤ (p : ℚ) ∧ (p : ℚ) ≤ rip := by
  obtain ⟨hprom, hlbp, hprb, hrblen, hxlb, hxrb, hp1, hpn⟩ := promData_spec x p hp
  have hH : getQ x p - (promData x p).prom * (1/2) = getQ x p - (promData x p).prom / 2 := by
    ring
  have hHlt : getQ x p - (promData x p).prom * (1/2) < getQ x p := by linarith
  have hxlbH : getQ x (promData x p).leftBase <
      getQ x p - (promData x p).prom * (1/2) := by linarith
  have hxrbH : getQ x (promData x p).rightBase <
      getQ x p - (promData x p).prom * (1/2) := by linarith
  set H := getQ x p - (promData x p).prom * (1/2) with hHdef
  obtain ⟨hILge, hILlt, hILval, hILnext⟩ :=
    widthLeftWalk_spec x (promData x p).leftBase p H hlbp hHlt hxlbH
  obtain ⟨hIRgt, hIRle, hIRval, hIRprev⟩ :=
    widthRightWalk_spec x (promData x p).rightBase p H hprb hrblen hHlt hxrbH hpn
  set IL := widthLeftWalk x H (promData x p).leftBase p with hILdef
  set IR := widthRightWalk x H (promData x p).rightBase x.length p with hIRdef
  set f := (if getQ x IL < H then (H - getQ x IL) / (getQ x (IL + 1) - getQ x IL) else 0)
    with hfdef
  set g := (if getQ x IR < H then (H - getQ x IR) / (getQ x (IR - 1) - getQ x IR) else 0)
    with hgdef
  have hf_nonneg : 0 ≤ f := by
    rw [hfdef]
    by_cases hc : getQ x IL < H
    · rw [if_pos hc]
      have hden : 0 < getQ x (IL + 1) - getQ x IL := by linarith
      exact le_of_lt (div_pos (by linarith) hden)
    · rw [if_neg hc]
  have hf_le1 : f ≤ 1 := by
    rw [hfdef]
    by_cases hc : getQ x IL < H
    · rw [if_pos hc]
      have hden : 0 < getQ x (IL + 1) - getQ x IL := by linarith
      exact le_of_lt ((div_lt_one hden).mpr (by linarith))
    · rw [if_neg hc]
      exact zero_le_one
  have hg_nonneg : 0 ≤ g := by
    rw [hgdef]
    by_cases hc : getQ x IR < H
    · rw [if_pos hc]
      have hden : 0 < getQ x (IR - 1) - getQ x IR := by linarith
      exact le_of_lt (div_pos (by linarith) hden)
    · rw [if_neg hc]
  have hg_le1 : g ≤ 1 := by
    rw [hgdef]
    by_cases hc : getQ x IR < H
    · rw [if_pos hc]
      have hden : 0 < getQ x (IR - 1) - getQ x IR := by linarith
      exact le_of_lt ((div_lt_one hden).mpr (by linarith))
    · rw [if_neg hc]
      exact zero_le_one
  refine ⟨(IL : ℚ) + f, (IR : ℚ) - g, ?_, ?_, ?_, ?_, ?_⟩
  · have hstruct : peakWidthOne x (1/2) p =
        ((IR : ℚ) - g - ((IL : ℚ) + f), H, (IL : ℚ) + f, (IR : ℚ) - g) := rfl
    rw [hstruct, hHdef]
    simp only [Prod.mk.injEq, and_true, true_and]
    ring
  · have hcross := interp_left_cross x IL H hILval hILnext
    rw [hfdef, hcross]
    rw [hHdef]
    exact hH
  · have hcross := interp_right_cross x IR H (by omega) hIRval hIRprev
    rw [hgdef, hcross]
    rw [hHdef]
    exact hH
  · have hILp : IL + 1 ≤ p := hILlt
    have hcast : (IL : ℚ) + 1 ≤ (p : ℚ) := by exact_mod_cast hILp
    linarith
  · have hIRp : p + 1 ≤ IR := hIRgt
    have hcast : (p : ℚ) + 1 ≤ (IR : ℚ) := by exact_mod_cast hIRp
    linarith

theorem peakmax_mem (frame : List (List ℚ)) (pm : ℚ) (pb : ℕ) (inv : Bool) (roi : List ℕ)
    (p : ℕ) (hsel : (peak_fwhm frame pm pb inv roi).peakmax = [p]) :
    p ∈ localMaxima (lineoutOf frame pb inv roi) := by
  by_cases h1 : 1 < (find_peaks (lineoutOf frame pb inv roi) pm).1.length
  · obtain ⟨hmax, _⟩ := peak_fwhm_of_many frame pm pb inv roi h1
    rw [hsel] at hmax
    have hpe : p = (find_peaks (lineoutOf frame pb inv roi) pm).1.getD
        (npArgmax (find_peaks (lineoutOf frame pb inv roi) pm).2.prominences) 0 := by
      simpa using hmax
    have hne : (find_peaks (lineoutOf frame pb inv roi) pm).2.prominences ≠ [] := by
      have hlen := find_peaks_prominences_length (lineoutOf frame pb inv roi) pm
      intro hnil
      rw [hnil] at hlen
      simp only [List.length_nil] at hlen
      omega
    have hlt : npArgmax (find_peaks (lineoutOf frame pb inv roi) pm).2.prominences <
        (find_peaks (lineoutOf frame pb inv roi) pm).1.length := by
      have := npArgmax_lt _ hne
      rw [find_peaks_prominences_length] at this
      exact this
    have hmem : (find_peaks (lineoutOf frame pb inv roi) pm).1.getD
        (npArgmax (find_peaks (lineoutOf frame pb inv roi) pm).2.prominences) 0 ∈
        (find_peaks (lineoutOf frame pb inv roi) pm).1 := by
      rw [List.getD_eq_getElem _ _ hlt]
      exact List.getElem_mem hlt
    rw [← hpe] at hmem
    exact (mem_find_peaks hmem).1
  · obtain ⟨hmax, _⟩ := peak_fwhm_of_few frame pm pb inv roi h1
    rw [hsel] at hmax
    have hmem : p ∈ (find_peaks (lineoutOf frame pb inv roi) pm).1 := by
      rw [← hmax]
      simp
    exact (mem_find_peaks hmem).1

/-- C2: for every selected peak `p`, the width result is computed at relative
height 0.5: the carried height threshold equals the peak height minus half the
peak's prominence, the returned width equals the horizontal distance between
the returned left and right interpolated boundary positions, and the lineout,
linearly interpolated at each boundary position, equals exactly that height
threshold; the two boundaries bracket the peak. -/
theorem peak_fwhm_width_half_prominence (frame : List (List ℚ)) (pm : ℚ) (pb : ℕ)
    (inv : Bool) (roi : List ℕ) (p : ℕ)
    (hsel : (peak_fwhm frame pm pb inv roi).peakmax = [p]) :
    ∃ lip rip,
      (peak_fwhm frame pm pb inv roi).peakwidth =
        ⟨[rip - lip],
         [getQ (peak_fwhm frame pm pb inv roi).lineout p -
           (promData (peak_fwhm frame pm pb inv roi).lineout p).prom / 2],
         [lip], [rip]⟩ ∧
      interp (peak_fwhm frame pm pb inv roi).lineout lip =
        getQ (peak_fwhm frame pm pb inv roi).lineout p -
          (promData (peak_fwhm frame pm pb inv roi).lineout p).prom / 2 ∧
      interp (peak_fwhm frame pm pb inv roi).lineout rip =
        getQ (peak_fwhm frame pm pb inv roi).lineout p -
          (promData (peak_fwhm frame pm pb inv roi).lineout p).prom / 2 ∧
      lip ≤ (p : ℚ) ∧ (p : ℚ) ≤ rip := by
  have hmem := peakmax_mem frame pm pb inv roi p hsel
  obtain ⟨lip, rip, hstruct, hcl, hcr, hlp, hpr⟩ :=
    peakWidthOne_spec (lineoutOf frame pb inv roi) p hmem
  refine ⟨lip, rip, ?_, ?_, ?_, hlp, hpr⟩
  · rw [peak_fwhm_peakwidth, hsel, peak_widths_singleton, peak_fwhm_lineout, hstruct]
  · rw [peak_fwhm_lineout]
    exact hcl
  · rw [peak_fwhm_lineout]
    exact hcr

/-- Witness for C2: a single triangular peak at column 1 of the lineout
`[0, 10, 0]`. -/
theorem peak_fwhm_width_half_prominence_witness :
    ∃ lip rip,
      (peak_fwhm [[0, 10, 0]] 5 8 false [0, 1, 0, 3]).peakwidth =
        ⟨[rip - lip],
         [getQ (peak_fwhm [[0, 10, 0]] 5 8 false [0, 1, 0, 3]).lineout 1 -
           (promData (peak_fwhm [[0, 10, 0]] 5 8 false [0, 1, 0, 3]).lineout 1).prom / 2],
         [lip], [rip]⟩ ∧
      interp (peak_fwhm [[0, 10, 0]] 5 8 false [0, 1, 0, 3]).lineout lip =
        getQ (peak_fwhm [[0, 10, 0]] 5 8 false [0, 1, 0, 3]).lineout 1 -
          (promData (peak_fwhm [[0, 10, 0]] 5 8 false [0, 1, 0, 3]).lineout 1).prom / 2 ∧
      interp (peak_fwhm [[0, 10, 0]] 5 8 false [0, 1, 0, 3]).lineout rip =
        getQ (peak_fwhm [[0, 10, 0]] 5 8 false [0, 1, 0, 3]).lineout 1 -
          (promData (peak_fwhm [[0, 10, 0]] 5 8 false [0, 1, 0, 3]).lineout 1).prom / 2 ∧
      lip ≤ ((1 : ℕ) : ℚ) ∧ ((1 : ℕ) : ℚ) ≤ rip :=
  peak_fwhm_width_half_prominence [[0, 10, 0]] 5 8 false [0, 1, 0, 3] 1 (by
    norm_num [peak_fwhm, lineoutOf, workingOf, cropOf, pySlice, npMeanAxis0, find_peaks,
      localMaxima, localMaximaAux, plateauScan, promData, leftWalk, rightWalk, getQ,
      List.getD])
